import Mathlib

/-!
# AVL tree (`src/impl/avl.h`): shallow embedding and verification

The C++ class `tree::AVL<V>` owns a root pointer `head` of type
`std::unique_ptr<Node>`.  A `unique_ptr<Node>` is either `nullptr` or owns a
node with fields `id`, `data`, `height`, `lchild`, `rchild`; exclusive
ownership makes the pointer graph a finite tree, so it is embedded as an
inductive type.  Functions that rewrite the slot they are handed
(`std::unique_ptr<Node> &node`) become functions from the old slot content to
the new one.  Dereferencing a null pointer is undefined behaviour in the
source; the embedding makes every such function return `Option`, with `none`
standing for a null dereference.

Keys and heights are C++ `int`.  Keys are only compared, never computed with,
so they are embedded as `Int`.  Heights are embedded as `Int` as well.  On
reachable trees the height arithmetic of the source (`a - b`, `max a b + 1`)
stays far away from the `int` range, since those heights are bounded by the
logarithmic-height theorem.  The tie-break property speaks about an arbitrary
node, whose cached heights may be set by hand; for it the rebalancing step is
given a second time in 32-bit `int` arithmetic (`balanceTree32`), and the
property is stated on that.

The copy-independence property speaks about two objects at once.  It is stated
over a model of the free store (`Heap`, `Mem.insertNode`, ...) in which the
nodes of all objects live together, and which is proved to refine the tree
model.
-/

namespace AVL

/-- Content of a `std::unique_ptr<Node>`: `null` is `nullptr`, `mk` an owned
`struct Node` with its five fields in declaration order. -/
inductive Node (V : Type) where
  | null : Node V
  | mk (id : Int) (data : V) (height : Int) (lchild rchild : Node V) : Node V
  deriving DecidableEq

variable {V : Type}

/-- Source `AVL::nodeHeight`: `node == nullptr ? -1 : node->height`. -/
def nodeHeight : Node V → Int
  | .null => -1
  | .mk _ _ h _ _ => h

/-- Source `AVL::LLRotation`.  `node` and `node->lchild` are dereferenced, so
both must be present. -/
def LLRotation : Node V → Option (Node V)
  | .mk id data _ (.mk lid ldata _ ll lr) r =>
      let nh := max (nodeHeight lr) (nodeHeight r) + 1
      let lh := max (nodeHeight ll) nh + 1
      some (.mk lid ldata lh ll (.mk id data nh lr r))
  | _ => none

/-- Source `AVL::RRRotation`, the mirror image of `LLRotation`. -/
def RRRotation : Node V → Option (Node V)
  | .mk id data _ l (.mk rid rdata _ rl rr) =>
      let nh := max (nodeHeight l) (nodeHeight rl) + 1
      let rh := max (nodeHeight rr) nh + 1
      some (.mk rid rdata rh (.mk id data nh l rl) rr)
  | _ => none

/-- Source `AVL::LRRotation`: `RRRotation(node->lchild); LLRotation(node);`. -/
def LRRotation : Node V → Option (Node V)
  | .null => none
  | .mk id data h l r =>
      match RRRotation l with
      | none => none
      | some l' => LLRotation (.mk id data h l' r)

/-- Source `AVL::RLRotation`: `LLRotation(node->rchild); RRRotation(node);`. -/
def RLRotation : Node V → Option (Node V)
  | .null => none
  | .mk id data h l r =>
      match LLRotation r with
      | none => none
      | some r' => RRRotation (.mk id data h l r')

/-- Source `allowedHeightDifference`. -/
def allowedHeightDifference : Int := 1

/-- The last statement of `AVL::balanceTree`:
`node->height = max(nodeHeight(node->lchild), nodeHeight(node->rchild)) + 1`. -/
def updateHeight : Node V → Option (Node V)
  | .null => none
  | .mk id data _ l r => some (.mk id data (max (nodeHeight l) (nodeHeight r) + 1) l r)

/-- The rotation choice of `AVL::balanceTree` on a present node. -/
def rebalance : Node V → Option (Node V)
  | .null => none
  | .mk id data h l r =>
      if nodeHeight l - nodeHeight r > allowedHeightDifference then
        match l with
        | .null => none
        | .mk _ _ _ ll lr =>
            if nodeHeight ll ≥ nodeHeight lr then LLRotation (.mk id data h l r)
            else LRRotation (.mk id data h l r)
      else if nodeHeight r - nodeHeight l > allowedHeightDifference then
        match r with
        | .null => none
        | .mk _ _ _ rl rr =>
            if nodeHeight rr ≥ nodeHeight rl then RRRotation (.mk id data h l r)
            else RLRotation (.mk id data h l r)
      else some (.mk id data h l r)

/-- Source `AVL::balanceTree`: return at once on `nullptr`, otherwise rotate if
the cached heights of the children differ by more than
`allowedHeightDifference`, then recompute the cached height of the node now in
the slot. -/
def balanceTree : Node V → Option (Node V)
  | .null => some .null
  | .mk id data h l r =>
      match rebalance (.mk id data h l r) with
      | none => none
      | some n => updateHeight n

/-- Source `AVL::findMin`: walk `lchild` while it is present, return that
node's `id`; on `nullptr` the final `tempNode->id` is a null dereference. -/
def findMin : Node V → Option Int
  | .null => none
  | .mk id _ _ .null _ => some id
  | .mk _ _ _ (.mk lid ld lh ll lr) _ => findMin (.mk lid ld lh ll lr)

/-- Source `AVL::insertNode`.  An absent slot is filled with a fresh node
(`height = 0`, no children); control then falls through the two comparisons,
which both fail on the fresh node, to `balanceTree`. -/
def insertNode : Node V → Int → V → Option (Node V)
  | .null, id, data => balanceTree (.mk id data 0 .null .null)
  | .mk nid ndata h l r, id, data =>
      if id < nid then
        match insertNode l id data with
        | none => none
        | some l' => balanceTree (.mk nid ndata h l' r)
      else if id > nid then
        match insertNode r id data with
        | none => none
        | some r' => balanceTree (.mk nid ndata h l r')
      else balanceTree (.mk nid ndata h l r)

/-- Source `AVL::deleteNode`.  In the two-children branch only `node->id` is
assigned (`node->id = findMin(node->rchild)`); `node->data` is left as it
is. -/
def deleteNode : Int → Node V → Option (Node V)
  | _, .null => some .null
  | id, .mk nid ndata h l r =>
      if id < nid then
        match deleteNode id l with
        | none => none
        | some l' => balanceTree (.mk nid ndata h l' r)
      else if id > nid then
        match deleteNode id r with
        | none => none
        | some r' => balanceTree (.mk nid ndata h l r')
      else
        match l, r with
        | .mk lid ld lh ll lr, .mk rid rd rh rl rr =>
            match findMin (.mk rid rd rh rl rr) with
            | none => none
            | some m =>
                match deleteNode m (.mk rid rd rh rl rr) with
                | none => none
                | some r' => balanceTree (.mk m ndata h (.mk lid ld lh ll lr) r')
        | .mk lid ld lh ll lr, .null => balanceTree (.mk lid ld lh ll lr)
        | .null, r => balanceTree r

/-- Source `AVL::searchNode`, the loop started at `head`. -/
def searchNode : Node V → Int → Bool
  | .null, _ => false
  | .mk nid _ _ l r, id =>
      if id < nid then searchNode l id
      else if id > nid then searchNode r id
      else true

set_option linter.dupNamespace false

/-- Source `class AVL`: the only data member is the root pointer `head`. -/
structure AVL (V : Type) where
  head : Node V
  deriving DecidableEq

/-- Source copy constructor `AVL(const AVL &rhs)`: `head` starts as `nullptr`;
if `rhs.head` is present, `head` becomes a fresh node built by
`Node(rhs.head->id, std::forward<V>(rhs.head->data))`, that is with default
`height = 0` and no children.  `std::forward<V>` hands the constructor an
rvalue, so the value is moved out of `rhs.head->data`; `movedFrom` is what the
move constructor of `V` leaves behind (the identity for `int`).  The result is
the constructed object paired with `rhs` afterwards. -/
def copyConstructor (movedFrom : V → V) (rhs : AVL V) : AVL V × AVL V :=
  match rhs.head with
  | .null => (⟨.null⟩, rhs)
  | .mk id data h l r => (⟨.mk id data 0 .null .null⟩, ⟨.mk id (movedFrom data) h l r⟩)

/-- Source copy assignment `operator=(const AVL &rhs)` on two different
objects: `head.reset()` if `rhs.head` is absent; a fresh single node as in the
copy constructor if `head` is absent; otherwise `std::swap(*head, *rhs.head)`,
which exchanges all five fields of the two root nodes, children included.  The
result is the assigned object paired with `rhs` afterwards. -/
def copyAssign (movedFrom : V → V) (self rhs : AVL V) : AVL V × AVL V :=
  match rhs.head with
  | .null => (⟨.null⟩, rhs)
  | .mk id data h l r =>
      match self.head with
      | .null => (⟨.mk id data 0 .null .null⟩, ⟨.mk id (movedFrom data) h l r⟩)
      | .mk sid sdata sh sl sr => (⟨.mk id data h l r⟩, ⟨.mk sid sdata sh sl sr⟩)

/-- Source move constructor `AVL(AVL &&rhs)`: `head(std::move(rhs.head))`.
Moving a `unique_ptr` leaves the source `nullptr`.  The result is the
constructed object paired with `rhs` afterwards. -/
def moveConstructor (rhs : AVL V) : AVL V × AVL V :=
  (⟨rhs.head⟩, ⟨.null⟩)

/-- Source move assignment `operator=(AVL &&rhs)` on two different objects:
`head = std::move(rhs.head)`; the tree `head` owned before is released.  The
result is the assigned object paired with `rhs` afterwards. -/
def moveAssign (_self rhs : AVL V) : AVL V × AVL V :=
  (⟨rhs.head⟩, ⟨.null⟩)

/-! ## Observations on trees used to state the properties -/

/-- Recursively defined subtree height: absent subtree `-1`, leaf `0`. -/
def height : Node V → Int
  | .null => -1
  | .mk _ _ _ l r => max (height l) (height r) + 1

/-- In-order sequence of `(id, data)` pairs. -/
def toList : Node V → List (Int × V)
  | .null => []
  | .mk id data _ l r => toList l ++ (id, data) :: toList r

/-- In-order sequence of keys. -/
def keys (t : Node V) : List Int := (toList t).map Prod.fst

/-- Number of nodes. -/
def size : Node V → Nat
  | .null => 0
  | .mk _ _ _ l r => size l + 1 + size r

/-- Every node satisfies `|height(left) - height(right)| ≤ 1`. -/
def Balanced : Node V → Prop
  | .null => True
  | .mk _ _ _ l r => |height l - height r| ≤ 1 ∧ Balanced l ∧ Balanced r

/-- Every node's cached `height` field equals the recursively defined height
of the subtree rooted at it. -/
def HeightsCorrect : Node V → Prop
  | .null => True
  | .mk id data h l r =>
      h = height (.mk id data h l r) ∧ HeightsCorrect l ∧ HeightsCorrect r

/-- At every node, all keys of the left subtree are smaller than the node's
key and all keys of the right subtree are larger. -/
def BST : Node V → Prop
  | .null => True
  | .mk id _ _ l r =>
      (∀ k ∈ keys l, k < id) ∧ (∀ k ∈ keys r, id < k) ∧ BST l ∧ BST r

/-- The in-order key sequence is strictly ascending. -/
def Ordered (t : Node V) : Prop := (keys t).Pairwise (fun a b => a < b)

/-- Height part of the AVL invariant in one recursive predicate: cached
heights are right and sibling heights differ by at most one. -/
def Inv : Node V → Prop
  | .null => True
  | .mk _ _ h l r =>
      Inv l ∧ Inv r ∧ h = max (height l) (height r) + 1 ∧
        height l ≤ height r + 1 ∧ height r ≤ height l + 1

/-- One public mutating call on `head`. -/
inductive Op (V : Type) where
  | insert (id : Int) (data : V) : Op V
  | delete (id : Int) : Op V
  deriving DecidableEq

/-- Effect of one call on the content of `head`: `insertNode(head, id, data)`
or `deleteNode(id, head)`. -/
def applyOp (t : Node V) : Op V → Option (Node V)
  | .insert id data => insertNode t id data
  | .delete id => deleteNode id t

/-- A finite sequence of calls on `head`, first call first. -/
def run : List (Op V) → Node V → Option (Node V)
  | [], t => some t
  | op :: ops, t =>
      match applyOp t op with
      | none => none
      | some t' => run ops t'

/-- Trees reachable from the empty tree by calls of `insertNode` and
`deleteNode` on `head`. -/
def Reachable (t : Node V) : Prop := ∃ ops : List (Op V), run ops .null = some t

/-- Whether key `k` is in the tree after one more call, given whether it was
there before: the set-of-keys reading of `insertNode` and `deleteNode`. -/
def Op.touch (k : Int) (b : Bool) : Op V → Bool
  | .insert id _ => if id = k then true else b
  | .delete id => if id = k then false else b

/-- Sorted-position insertion into a key-ordered association list; a key that
is already there keeps its entry. -/
def insList (k : Int) (v : V) : List (Int × V) → List (Int × V)
  | [] => [(k, v)]
  | (a, w) :: xs =>
      if k < a then (k, v) :: (a, w) :: xs
      else if k = a then (a, w) :: xs
      else (a, w) :: insList k v xs

/-! ## The rebalancing step in 32-bit `int` arithmetic -/

/-- A `struct Node` in the free store. -/
structure Cell (V : Type) where
  id : Int
  data : V
  height : Int
  lchild : Option Nat
  rchild : Option Nat

/-- The free store: the node at each allocated address, and the address the
next `std::make_unique<Node>` returns (all addresses from `next` on are
unused). -/
structure Heap (V : Type) where
  cells : Nat → Option (Cell V)
  next : Nat

/-- The store before anything was allocated. -/
def Heap.empty : Heap V := ⟨fun _ => none, 0⟩

/-- Assignment to the fields of the node at address `a`. -/
def Heap.write (h : Heap V) (a : Nat) (c : Cell V) : Heap V :=
  ⟨fun x => if x = a then some c else h.cells x, h.next⟩

/-- Destruction of the node at address `a` (its `unique_ptr` goes away). -/
def Heap.free (h : Heap V) (a : Nat) : Heap V :=
  ⟨fun x => if x = a then none else h.cells x, h.next⟩

/-- Effect of `std::make_unique<Node>`: the new node sits at a fresh address. -/
def Heap.alloc (h : Heap V) (c : Cell V) : Nat × Heap V :=
  (h.next, ⟨fun x => if x = h.next then some c else h.cells x, h.next + 1⟩)

namespace Mem

/-- Source `AVL::nodeHeight` on the store. -/
def nodeHeight (h : Heap V) : Option Nat → Option Int
  | none => some (-1)
  | some a =>
      match h.cells a with
      | none => none
      | some c => some c.height

/-- Source `AVL::LLRotation` on the store: with `n` the node in the slot and
`l` its left child, `n->lchild` becomes the former `l->rchild`, the two heights
are recomputed (`n` first), `l->rchild` becomes `n`, and the slot holds `l`. -/
def LLRotation (h : Heap V) (node : Option Nat) : Option (Option Nat × Heap V) := do
  let n ← node
  let cn ← h.cells n
  let l ← cn.lchild
  let cl ← h.cells l
  let hlr ← nodeHeight h cl.rchild
  let hr ← nodeHeight h cn.rchild
  let hll ← nodeHeight h cl.lchild
  let nh := max hlr hr + 1
  let lh := max hll nh + 1
  let h1 := h.write n ⟨cn.id, cn.data, nh, cl.rchild, cn.rchild⟩
  let h2 := h1.write l ⟨cl.id, cl.data, lh, cl.lchild, some n⟩
  pure (some l, h2)

/-- Source `AVL::RRRotation` on the store, the mirror image of `LLRotation`. -/
def RRRotation (h : Heap V) (node : Option Nat) : Option (Option Nat × Heap V) := do
  let n ← node
  let cn ← h.cells n
  let r ← cn.rchild
  let cr ← h.cells r
  let hl ← nodeHeight h cn.lchild
  let hrl ← nodeHeight h cr.lchild
  let hrr ← nodeHeight h cr.rchild
  let nh := max hl hrl + 1
  let rh := max hrr nh + 1
  let h1 := h.write n ⟨cn.id, cn.data, nh, cn.lchild, cr.lchild⟩
  let h2 := h1.write r ⟨cr.id, cr.data, rh, some n, cr.rchild⟩
  pure (some r, h2)

/-- Source `AVL::LRRotation` on the store: `RRRotation(node->lchild)`, whose
result is stored in `node->lchild`, then `LLRotation(node)`. -/
def LRRotation (h : Heap V) (node : Option Nat) : Option (Option Nat × Heap V) := do
  let n ← node
  let cn ← h.cells n
  let (pl, h1) ← RRRotation h cn.lchild
  let cn1 ← h1.cells n
  LLRotation (h1.write n ⟨cn1.id, cn1.data, cn1.height, pl, cn1.rchild⟩) (some n)

/-- Source `AVL::RLRotation` on the store: `LLRotation(node->rchild)`, whose
result is stored in `node->rchild`, then `RRRotation(node)`. -/
def RLRotation (h : Heap V) (node : Option Nat) : Option (Option Nat × Heap V) := do
  let n ← node
  let cn ← h.cells n
  let (pr, h1) ← LLRotation h cn.rchild
  let cn1 ← h1.cells n
  RRRotation (h1.write n ⟨cn1.id, cn1.data, cn1.height, cn1.lchild, pr⟩) (some n)

/-- The rotation choice of `AVL::balanceTree` on the store, for a present
node. -/
def rebalance (h : Heap V) (n : Nat) : Option (Option Nat × Heap V) := do
  let cn ← h.cells n
  let hl ← nodeHeight h cn.lchild
  let hr ← nodeHeight h cn.rchild
  if hl - hr > allowedHeightDifference then do
    let l ← cn.lchild
    let cl ← h.cells l
    let hll ← nodeHeight h cl.lchild
    let hlr ← nodeHeight h cl.rchild
    if hll ≥ hlr then LLRotation h (some n) else LRRotation h (some n)
  else if hr - hl > allowedHeightDifference then do
    let r ← cn.rchild
    let cr ← h.cells r
    let hrr ← nodeHeight h cr.rchild
    let hrl ← nodeHeight h cr.lchild
    if hrr ≥ hrl then RRRotation h (some n) else RLRotation h (some n)
  else pure (some n, h)

/-- The last statement of `AVL::balanceTree` on the store. -/
def updateHeight (h : Heap V) (node : Option Nat) : Option (Option Nat × Heap V) := do
  let n ← node
  let cn ← h.cells n
  let hl ← nodeHeight h cn.lchild
  let hr ← nodeHeight h cn.rchild
  pure (some n, h.write n ⟨cn.id, cn.data, max hl hr + 1, cn.lchild, cn.rchild⟩)

/-- Source `AVL::balanceTree` on the store. -/
def balanceTree (h : Heap V) (node : Option Nat) : Option (Option Nat × Heap V) :=
  match node with
  | none => some (none, h)
  | some n => do
      let (p, h1) ← rebalance h n
      updateHeight h1 p

/-- Source `AVL::findMin` on the store; one unit of fuel per loop round. -/
def findMin : Nat → Heap V → Option Nat → Option Int
  | 0, _, _ => none
  | fuel + 1, h, node => do
      let n ← node
      let cn ← h.cells n
      match cn.lchild with
      | none => pure cn.id
      | some l => findMin fuel h (some l)

/-- Source `AVL::insertNode` on the store; one unit of fuel per call. -/
def insertNode : Nat → Heap V → Option Nat → Int → V → Option (Option Nat × Heap V)
  | 0, _, _, _, _ => none
  | fuel + 1, h, node, id, data => do
      let (n, h0) :=
        match node with
        | none => h.alloc ⟨id, data, 0, none, none⟩
        | some n => (n, h)
      let cn ← h0.cells n
      if id < cn.id then do
        let (pl, h1) ← insertNode fuel h0 cn.lchild id data
        let cn1 ← h1.cells n
        balanceTree (h1.write n ⟨cn1.id, cn1.data, cn1.height, pl, cn1.rchild⟩) (some n)
      else if id > cn.id then do
        let (pr, h1) ← insertNode fuel h0 cn.rchild id data
        let cn1 ← h1.cells n
        balanceTree (h1.write n ⟨cn1.id, cn1.data, cn1.height, cn1.lchild, pr⟩) (some n)
      else balanceTree h0 (some n)

/-- Source `AVL::deleteNode` on the store; one unit of fuel per call.  In the
one-child branch `oldNode` takes the node out of the slot, the slot receives
the child, and `oldNode` is destroyed at the end of the block. -/
def deleteNode : Nat → Heap V → Option Nat → Int → Option (Option Nat × Heap V)
  | 0, _, _, _ => none
  | _ + 1, h, none, _ => some (none, h)
  | fuel + 1, h, some n, id => do
      let cn ← h.cells n
      if id < cn.id then do
        let (pl, h1) ← deleteNode fuel h cn.lchild id
        let cn1 ← h1.cells n
        balanceTree (h1.write n ⟨cn1.id, cn1.data, cn1.height, pl, cn1.rchild⟩) (some n)
      else if id > cn.id then do
        let (pr, h1) ← deleteNode fuel h cn.rchild id
        let cn1 ← h1.cells n
        balanceTree (h1.write n ⟨cn1.id, cn1.data, cn1.height, cn1.lchild, pr⟩) (some n)
      else
        match cn.lchild, cn.rchild with
        | some l, some r => do
            let m ← findMin fuel h (some r)
            let h1 := h.write n ⟨m, cn.data, cn.height, some l, some r⟩
            let (pr, h2) ← deleteNode fuel h1 (some r) m
            let cn2 ← h2.cells n
            balanceTree (h2.write n ⟨cn2.id, cn2.data, cn2.height, cn2.lchild, pr⟩) (some n)
        | some l, none => balanceTree (h.free n) (some l)
        | none, pr => balanceTree (h.free n) pr

/-- Source `AVL::searchNode` on the store, the loop started at `head`; one
unit of fuel per loop round. -/
def searchNode : Nat → Heap V → Option Nat → Int → Option Bool
  | 0, _, _, _ => none
  | _ + 1, _, none, _ => some false
  | fuel + 1, h, some n, id => do
      let cn ← h.cells n
      if id < cn.id then searchNode fuel h cn.lchild id
      else if id > cn.id then searchNode fuel h cn.rchild id
      else pure true

/-- Destruction of the tree a `unique_ptr<Node>` owns (`head.reset()`, or the
destructor): the children are destroyed with the node. -/
def destroy : Nat → Heap V → Option Nat → Option (Heap V)
  | 0, _, _ => none
  | _ + 1, h, none => some h
  | fuel + 1, h, some n => do
      let cn ← h.cells n
      let h1 ← destroy fuel h cn.rchild
      let h2 ← destroy fuel h1 cn.lchild
      pure (h2.free n)

/-- Source copy constructor on the store, see `AVL.copyConstructor`: returns
the `head` of the constructed object, the `head` of `rhs` and the store. -/
def copyConstructor (movedFrom : V → V) (h : Heap V) (rhs : Option Nat) :
    Option (Option Nat × Option Nat × Heap V) :=
  match rhs with
  | none => some (none, none, h)
  | some a => do
      let ca ← h.cells a
      let h1 := h.write a ⟨ca.id, movedFrom ca.data, ca.height, ca.lchild, ca.rchild⟩
      let (b, h2) := h1.alloc ⟨ca.id, ca.data, 0, none, none⟩
      pure (some b, some a, h2)

/-- Source copy assignment on the store, see `AVL.copyAssign`, for two
different objects: `head.reset()` destroys the tree of the assigned object;
`std::swap(*head, *rhs.head)` exchanges the contents of the two root nodes.
Returns the `head` of the assigned object, the `head` of `rhs` and the
store. -/
def copyAssign (movedFrom : V → V) (fuel : Nat) (h : Heap V) (self rhs : Option Nat) :
    Option (Option Nat × Option Nat × Heap V) :=
  match rhs with
  | none => do
      let h1 ← destroy fuel h self
      pure (none, none, h1)
  | some a =>
      match self with
      | none => do
          let ca ← h.cells a
          let h1 := h.write a ⟨ca.id, movedFrom ca.data, ca.height, ca.lchild, ca.rchild⟩
          let (b, h2) := h1.alloc ⟨ca.id, ca.data, 0, none, none⟩
          pure (some b, some a, h2)
      | some b => do
          let ca ← h.cells a
          let cb ← h.cells b
          pure (some b, some a, (h.write a cb).write b ca)

/-- One public mutating call on the `head` holding `p`. -/
def applyOp (fuel : Nat) (h : Heap V) (p : Option Nat) : Op V → Option (Option Nat × Heap V)
  | .insert id data => insertNode fuel h p id data
  | .delete id => deleteNode fuel h p id

/-- A finite sequence of calls on one `head`, first call first. -/
def run (fuel : Nat) : List (Op V) → Option Nat × Heap V → Option (Option Nat × Heap V)
  | [], s => some s
  | op :: ops, s =>
      match applyOp fuel s.2 s.1 op with
      | none => none
      | some s' => run fuel ops s'

end Mem

/-! ## Relating the store to trees -/

/-- Every address from `next` on is unused. -/
def Heap.WF (h : Heap V) : Prop := ∀ a, h.next ≤ a → h.cells a = none

/-- `Repr h t p fp`: in the store `h` the pointer `p` owns exactly the tree
`t`, and `fp` is the set of addresses of its nodes, each used once. -/
def Repr (h : Heap V) : Node V → Option Nat → Set Nat → Prop
  | .null, p, fp => p = none ∧ fp = ∅
  | .mk id d c l r, p, fp =>
      ∃ a pl pr fl fr, p = some a ∧ h.cells a = some ⟨id, d, c, pl, pr⟩ ∧
        Repr h l pl fl ∧ Repr h r pr fr ∧ a ∉ fl ∧ a ∉ fr ∧ (∀ x ∈ fl, x ∉ fr) ∧
        fp = insert a (fl ∪ fr)

/-- The step from `h` to `h'` writes only to addresses of `fp` and allocates
nothing. -/
def InPlace (h : Heap V) (fp : Set Nat) (h' : Heap V) : Prop :=
  h'.next = h.next ∧ ∀ a, a ∉ fp → h'.cells a = h.cells a

/-- The step from `h` to `h'` turns the footprint `fp` into `fp'`: new
addresses are freshly allocated ones, and every address that was in use outside
`fp` keeps its node. -/
def Frame (h : Heap V) (fp : Set Nat) (h' : Heap V) (fp' : Set Nat) : Prop :=
  h.next ≤ h'.next ∧ (∀ a ∈ fp', a ∈ fp ∨ h.next ≤ a) ∧
    (∀ a, a ∉ fp → a < h.next → h'.cells a = h.cells a) ∧ h'.WF

/-- Two objects in one store: starting from the empty store, the calls `opsA`
on the `head` of a first object `A`, then the calls `opsB` on the `head` of a
second object `B`.  Returns the two `head` pointers and the store. -/
def Mem.build (fuel : Nat) (opsA opsB : List (Op V)) :
    Option (Option Nat × Option Nat × Heap V) :=
  match Mem.run fuel opsA (none, Heap.empty) with
  | none => none
  | some (pA, h1) =>
      match Mem.run fuel opsB (none, h1) with
      | none => none
      | some (pB, h2) => some (pA, pB, h2)

/-- Result of `A.searchNode(k)` right after `build`. -/
def Mem.searchFirst (fuel : Nat) (opsA opsB : List (Op V)) (k : Int) : Option Bool :=
  match Mem.build fuel opsA opsB with
  | none => none
  | some (pA, _, h) => Mem.searchNode fuel h pA k

/-- Result of `B.searchNode(k)` right after `build`. -/
def Mem.searchSecond (fuel : Nat) (opsA opsB : List (Op V)) (k : Int) : Option Bool :=
  match Mem.build fuel opsA opsB with
  | none => none
  | some (_, pB, h) => Mem.searchNode fuel h pB k

/-- Result of `A.searchNode(k)` after `build`, the copy construction of a new
object from `A`, and the calls `ops` on the `head` of the new object. -/
def Mem.searchAfterCopyConstructor (movedFrom : V → V) (fuel : Nat)
    (opsA opsB ops : List (Op V)) (k : Int) : Option Bool :=
  match Mem.build fuel opsA opsB with
  | none => none
  | some (pA, _, h) =>
      match Mem.copyConstructor movedFrom h pA with
      | none => none
      | some (pC, pA1, h1) =>
          match Mem.run fuel ops (pC, h1) with
          | none => none
          | some (_, h2) => Mem.searchNode fuel h2 pA1 k

/-- Result of `A.searchNode(k)` after `build`, the copy assignment `B = A`, and
the calls `ops` on the `head` of `B`. -/
def Mem.searchAfterCopyAssign (movedFrom : V → V) (fuel : Nat)
    (opsA opsB ops : List (Op V)) (k : Int) : Option Bool :=
  match Mem.build fuel opsA opsB with
  | none => none
  | some (pA, pB, h) =>
      match Mem.copyAssign movedFrom fuel h pB pA with
      | none => none
      | some (pB1, pA1, h1) =>
          match Mem.run fuel ops (pB1, h1) with
          | none => none
          | some (_, h2) => Mem.searchNode fuel h2 pA1 k

/-! ## Concrete inputs used to instantiate the theorems -/

/-- Three inserts on an empty tree. -/
def sampleOps : List (Op Int) := [.insert 10 100, .insert 20 200, .insert 5 50]

/-- The tree `sampleOps` builds: root 10 with the leaves 5 and 20. -/
def sampleTree : Node Int :=
  .mk 10 100 1 (.mk 5 50 0 .null .null) (.mk 20 200 0 .null .null)

/-- Two inserts followed by the delete of the second key. -/
def sampleCalls : List (Op Int) := [.insert 10 100, .insert 20 200, .delete 20]

/-! ## Basic facts -/

theorem height_ge (t : Node V) : -1 ≤ height t := by
  induction t with
  | null => simp [height]
  | mk id data c l r ihl ihr => simp only [height]; omega

theorem nodeHeight_eq_height {t : Node V} (h : Inv t) : nodeHeight t = height t := by
  cases t with
  | null => rfl
  | mk id data c l r => simp only [Inv] at h; simp only [nodeHeight, height]; omega

theorem LLRotation_toList {n n' : Node V} (h : LLRotation n = some n') :
    toList n' = toList n := by
  rcases n with _ | ⟨id, d, c, _ | ⟨lid, ld, lc, ll, lr⟩, r⟩ <;> simp [LLRotation] at h
  subst h
  simp [toList]

theorem RRRotation_toList {n n' : Node V} (h : RRRotation n = some n') :
    toList n' = toList n := by
  rcases n with _ | ⟨id, d, c, l, _ | ⟨rid, rd, rc, rl, rr⟩⟩ <;> simp [RRRotation] at h
  subst h
  simp [toList]

theorem LRRotation_toList {n n' : Node V} (h : LRRotation n = some n') :
    toList n' = toList n := by
  rcases n with _ | ⟨id, d, c, l, r⟩
  · simp [LRRotation] at h
  · simp only [LRRotation] at h
    cases e : RRRotation l with
    | none => simp [e] at h
    | some l' =>
      simp only [e] at h
      rw [LLRotation_toList h]
      simp [toList, RRRotation_toList e]

theorem RLRotation_toList {n n' : Node V} (h : RLRotation n = some n') :
    toList n' = toList n := by
  rcases n with _ | ⟨id, d, c, l, r⟩
  · simp [RLRotation] at h
  · simp only [RLRotation] at h
    cases e : LLRotation r with
    | none => simp [e] at h
    | some r' =>
      simp only [e] at h
      rw [RRRotation_toList h]
      simp [toList, LLRotation_toList e]

theorem updateHeight_toList {n n' : Node V} (h : updateHeight n = some n') :
    toList n' = toList n := by
  cases n <;> simp [updateHeight] at h
  subst h
  simp [toList]

theorem rebalance_toList {n n' : Node V} (h : rebalance n = some n') :
    toList n' = toList n := by
  rcases n with _ | ⟨id, d, c, l, r⟩
  · simp [rebalance] at h
  · simp only [rebalance] at h
    split at h
    · split at h
      · simp at h
      · split at h
        · exact LLRotation_toList h
        · exact LRRotation_toList h
    · split at h
      · split at h
        · simp at h
        · split at h
          · exact RRRotation_toList h
          · exact RLRotation_toList h
      · simp at h; subst h; rfl

theorem balanceTree_toList {n n' : Node V} (h : balanceTree n = some n') :
    toList n' = toList n := by
  rcases n with _ | ⟨id, d, c, l, r⟩
  · simp [balanceTree] at h; subst h; rfl
  · simp only [balanceTree] at h
    cases e : rebalance (Node.mk id d c l r) with
    | none => simp [e] at h
    | some m =>
      simp only [e] at h
      rw [updateHeight_toList h, rebalance_toList e]

@[simp] theorem nodeHeight_null : nodeHeight (Node.null : Node V) = -1 := rfl
@[simp] theorem nodeHeight_mk (id : Int) (d : V) (c : Int) (l r : Node V) :
    nodeHeight (Node.mk id d c l r) = c := rfl

theorem balanceTree_inv (id : Int) (data : V) (c : Int) {l r : Node V}
    (hl : Inv l) (hr : Inv r) (h1 : height l ≤ height r + 2) (h2 : height r ≤ height l + 2) :
    ∃ t', balanceTree (.mk id data c l r) = some t' ∧ Inv t' ∧
      (height t' = max (height l) (height r) + 1 ∨
        (height t' = max (height l) (height r) ∧
          (height l = height r + 2 ∨ height r = height l + 2))) := by
  have el := nodeHeight_eq_height hl
  have er := nodeHeight_eq_height hr
  have gl := height_ge l
  have gr := height_ge r
  by_cases c1 : nodeHeight l - nodeHeight r > 1
  · rcases l with _ | ⟨lid, ld, lc, ll, lr⟩
    · rw [el, er] at c1; simp only [height] at c1; omega
    · have hl' := hl
      simp only [Inv] at hl'
      obtain ⟨hll, hlr, hlc, b1, b2⟩ := hl'
      have ell := nodeHeight_eq_height hll
      have elr := nodeHeight_eq_height hlr
      have gll := height_ge ll
      have glr := height_ge lr
      by_cases c2 : nodeHeight ll ≥ nodeHeight lr
      · simp only [balanceTree, rebalance, allowedHeightDifference, if_pos c1, if_pos c2,
          LLRotation, updateHeight]
        refine ⟨_, rfl, ?_, ?_⟩
        · simp only [Inv, height, nodeHeight_mk] at *
          refine ⟨hll, ⟨hlr, hr, ?_, ?_, ?_⟩, ?_, ?_, ?_⟩ <;> omega
        · simp only [height, nodeHeight_mk] at *
          omega
      · rcases lr with _ | ⟨mid, md, mc, ml, mr⟩
        · rw [ell, elr] at c2; simp only [height] at c2; omega
        · have hlr' := hlr
          simp only [Inv] at hlr'
          obtain ⟨hml, hmr, hmc, b3, b4⟩ := hlr'
          have eml := nodeHeight_eq_height hml
          have emr := nodeHeight_eq_height hmr
          simp only [balanceTree, rebalance, allowedHeightDifference, if_pos c1, if_neg c2,
            LRRotation, RRRotation, LLRotation, updateHeight]
          refine ⟨_, rfl, ?_, ?_⟩
          · simp only [Inv, height, nodeHeight_mk] at *
            refine ⟨⟨hll, hml, ?_, ?_, ?_⟩, ⟨hmr, hr, ?_, ?_, ?_⟩, ?_, ?_, ?_⟩ <;> omega
          · simp only [height, nodeHeight_mk] at *
            omega
  · by_cases c3 : nodeHeight r - nodeHeight l > 1
    · rcases r with _ | ⟨rid, rd, rc, rl, rr⟩
      · rw [el, er] at c3; simp only [height] at c3; omega
      · have hr' := hr
        simp only [Inv] at hr'
        obtain ⟨hrl, hrr, hrc, b1, b2⟩ := hr'
        have erl := nodeHeight_eq_height hrl
        have err := nodeHeight_eq_height hrr
        have grl := height_ge rl
        have grr := height_ge rr
        by_cases c4 : nodeHeight rr ≥ nodeHeight rl
        · simp only [balanceTree, rebalance, allowedHeightDifference, if_neg c1, if_pos c3,
            if_pos c4, RRRotation, updateHeight]
          refine ⟨_, rfl, ?_, ?_⟩
          · simp only [Inv, height, nodeHeight_mk] at *
            refine ⟨⟨hl, hrl, ?_, ?_, ?_⟩, hrr, ?_, ?_, ?_⟩ <;> omega
          · simp only [height, nodeHeight_mk] at *
            omega
        · rcases rl with _ | ⟨mid, md, mc, ml, mr⟩
          · rw [erl, err] at c4; simp only [height] at c4; omega
          · have hrl' := hrl
            simp only [Inv] at hrl'
            obtain ⟨hml, hmr, hmc, b3, b4⟩ := hrl'
            have eml := nodeHeight_eq_height hml
            have emr := nodeHeight_eq_height hmr
            simp only [balanceTree, rebalance, allowedHeightDifference, if_neg c1, if_pos c3,
              if_neg c4, RLRotation, RRRotation, LLRotation, updateHeight]
            refine ⟨_, rfl, ?_, ?_⟩
            · simp only [Inv, height, nodeHeight_mk] at *
              refine ⟨⟨hl, hml, ?_, ?_, ?_⟩, ⟨hmr, hrr, ?_, ?_, ?_⟩, ?_, ?_, ?_⟩ <;> omega
            · simp only [height, nodeHeight_mk] at *
              omega
    · simp only [balanceTree, rebalance, allowedHeightDifference, if_neg c1, if_neg c3,
        updateHeight]
      refine ⟨_, rfl, ?_, ?_⟩
      · simp only [Inv]
        rw [el, er]
        refine ⟨hl, hr, rfl, ?_, ?_⟩ <;> omega
      · exact Or.inl rfl

theorem balanceTree_id {t : Node V} (h : Inv t) : balanceTree t = some t := by
  rcases t with _ | ⟨id, d, c, l, r⟩
  · rfl
  · simp only [Inv] at h
    obtain ⟨hl, hr, hc, b1, b2⟩ := h
    have el := nodeHeight_eq_height hl
    have er := nodeHeight_eq_height hr
    have c1 : ¬ nodeHeight l - nodeHeight r > 1 := by omega
    have c3 : ¬ nodeHeight r - nodeHeight l > 1 := by omega
    simp only [balanceTree, rebalance, allowedHeightDifference, if_neg c1, if_neg c3,
      updateHeight]
    rw [el, er, hc]

theorem insertNode_inv (k : Int) (v : V) {t : Node V} (h : Inv t) :
    ∃ t', insertNode t k v = some t' ∧ Inv t' ∧
      (height t' = height t ∨ height t' = height t + 1) := by
  induction t with
  | null =>
    refine ⟨.mk k v 0 .null .null, ?_, ?_, ?_⟩
    · simp [insertNode, balanceTree, rebalance, allowedHeightDifference, updateHeight]
    · simp [Inv, height]
    · simp [height]
  | mk id d c l r ihl ihr =>
    have h' := h
    simp only [Inv] at h'
    obtain ⟨hl, hr, hc, b1, b2⟩ := h'
    simp only [insertNode]
    by_cases c1 : k < id
    · obtain ⟨l', e, il', hh⟩ := ihl hl
      obtain ⟨t', e', it', ht'⟩ := balanceTree_inv id d c il' hr (by omega) (by omega)
      refine ⟨t', ?_, it', ?_⟩
      · rw [if_pos c1, e]; exact e'
      · simp only [height]; omega
    · by_cases c2 : k > id
      · obtain ⟨r', e, ir', hh⟩ := ihr hr
        obtain ⟨t', e', it', ht'⟩ := balanceTree_inv id d c hl ir' (by omega) (by omega)
        refine ⟨t', ?_, it', ?_⟩
        · rw [if_neg c1, if_pos c2, e]; exact e'
        · simp only [height]; omega
      · refine ⟨_, ?_, h, Or.inl rfl⟩
        rw [if_neg c1, if_neg c2]; exact balanceTree_id h

theorem findMin_isSome (id : Int) (d : V) (c : Int) (l r : Node V) :
    ∃ m, findMin (.mk id d c l r) = some m := by
  induction l generalizing id d c r with
  | null => exact ⟨id, by simp [findMin]⟩
  | mk lid ld lc ll lr ihl _ =>
    obtain ⟨m, hm⟩ := ihl lid ld lc lr
    exact ⟨m, by simp only [findMin]; exact hm⟩

theorem deleteNode_lt {k id : Int} (d : V) (c : Int) (l r : Node V) (h : k < id) :
    deleteNode k (.mk id d c l r) =
      (deleteNode k l).bind fun l' => balanceTree (.mk id d c l' r) := by
  rcases l with _ | ⟨lid, ld, lc, ll, lr⟩ <;> rcases r with _ | ⟨rid, rd, rc, rl, rr⟩ <;>
    simp only [deleteNode, if_pos h] <;> (try split) <;> simp_all

theorem deleteNode_gt {k id : Int} (d : V) (c : Int) (l r : Node V) (h : id < k) :
    deleteNode k (.mk id d c l r) =
      (deleteNode k r).bind fun r' => balanceTree (.mk id d c l r') := by
  have h1 : ¬ k < id := by omega
  have h2 : k > id := h
  rcases l with _ | ⟨lid, ld, lc, ll, lr⟩ <;> rcases r with _ | ⟨rid, rd, rc, rl, rr⟩ <;>
    simp only [deleteNode, if_neg h1, if_pos h2] <;> (try split) <;> simp_all

theorem deleteNode_left_null (id : Int) (d : V) (c : Int) (r : Node V) :
    deleteNode id (.mk id d c .null r) = balanceTree r := by
  simp [deleteNode]

theorem deleteNode_right_null (id : Int) (d : V) (c : Int) (lid : Int) (ld : V) (lc : Int)
    (ll lr : Node V) :
    deleteNode id (.mk id d c (.mk lid ld lc ll lr) .null) =
      balanceTree (.mk lid ld lc ll lr) := by
  simp [deleteNode]

theorem deleteNode_both (id : Int) (d : V) (c : Int) (lid : Int) (ld : V) (lc : Int)
    (ll lr : Node V) (rid : Int) (rd : V) (rc : Int) (rl rr : Node V) :
    deleteNode id (.mk id d c (.mk lid ld lc ll lr) (.mk rid rd rc rl rr)) =
      (findMin (.mk rid rd rc rl rr)).bind fun m =>
        (deleteNode m (.mk rid rd rc rl rr)).bind fun r' =>
          balanceTree (.mk m d c (.mk lid ld lc ll lr) r') := by
  simp only [deleteNode, lt_irrefl, gt_iff_lt, if_false]
  cases findMin (Node.mk rid rd rc rl rr) with
  | none => rfl
  | some m =>
    simp only [Option.bind]
    split <;> simp_all

theorem deleteNode_inv (k : Int) {t : Node V} (h : Inv t) :
    ∃ t', deleteNode k t = some t' ∧ Inv t' ∧
      (height t' = height t ∨ height t' = height t - 1) := by
  induction t generalizing k with
  | null => exact ⟨.null, by simp [deleteNode], h, Or.inl rfl⟩
  | mk id d c l r ihl ihr =>
    have h' := h
    simp only [Inv] at h'
    obtain ⟨hl, hr, hc, b1, b2⟩ := h'
    by_cases c1 : k < id
    · obtain ⟨l', e, il', hh⟩ := ihl k hl
      obtain ⟨t', e', it', ht'⟩ := balanceTree_inv id d c il' hr (by omega) (by omega)
      refine ⟨t', ?_, it', ?_⟩
      · rw [deleteNode_lt d c l r c1, e]; exact e'
      · simp only [height]; omega
    · by_cases c2 : id < k
      · obtain ⟨r', e, ir', hh⟩ := ihr k hr
        obtain ⟨t', e', it', ht'⟩ := balanceTree_inv id d c hl ir' (by omega) (by omega)
        refine ⟨t', ?_, it', ?_⟩
        · rw [deleteNode_gt d c l r c2, e]; exact e'
        · simp only [height]; omega
      · obtain rfl : k = id := by omega
        rcases l with _ | ⟨lid, ld, lc, ll, lr⟩
        · refine ⟨r, ?_, hr, ?_⟩
          · rw [deleteNode_left_null]; exact balanceTree_id hr
          · have := height_ge r
            simp only [height] at *; omega
        · rcases r with _ | ⟨rid, rd, rc, rl, rr⟩
          · refine ⟨_, ?_, hl, ?_⟩
            · rw [deleteNode_right_null]; exact balanceTree_id hl
            · have := height_ge (Node.mk lid ld lc ll lr)
              simp only [height] at *; omega
          · obtain ⟨m, hm⟩ := findMin_isSome rid rd rc rl rr
            obtain ⟨r', e, ir', hh⟩ := ihr m hr
            obtain ⟨t', e', it', ht'⟩ := balanceTree_inv m d c hl ir' (by omega) (by omega)
            refine ⟨t', ?_, it', ?_⟩
            · rw [deleteNode_both, hm]; simp only [Option.bind, e]; exact e'
            · simp only [height] at *; omega

@[simp] theorem keys_null : keys (Node.null : Node V) = [] := rfl

@[simp] theorem keys_mk (id : Int) (d : V) (c : Int) (l r : Node V) :
    keys (.mk id d c l r) = keys l ++ id :: keys r := by
  simp [keys, toList]

theorem mem_keys_iff {t : Node V} {k : Int} : k ∈ keys t ↔ ∃ v, (k, v) ∈ toList t := by
  simp [keys]

theorem ordered_mk {id : Int} {d : V} {c : Int} {l r : Node V} :
    Ordered (.mk id d c l r) ↔
      Ordered l ∧ Ordered r ∧ (∀ a ∈ keys l, a < id) ∧ (∀ b ∈ keys r, id < b) := by
  simp only [Ordered, keys_mk, List.pairwise_append, List.pairwise_cons, List.mem_cons]
  constructor
  · rintro ⟨h1, ⟨h2, h3⟩, h4⟩
    exact ⟨h1, h3, fun a ha => h4 a ha id (Or.inl rfl), h2⟩
  · rintro ⟨h1, h2, h3, h4⟩
    refine ⟨h1, ⟨h4, h2⟩, ?_⟩
    rintro a ha b (rfl | hb)
    · exact h3 a ha
    · exact lt_trans (h3 a ha) (h4 b hb)

theorem insList_append_lt {k a : Int} (v w : V) (xs ys : List (Int × V)) (h : k < a) :
    insList k v (xs ++ (a, w) :: ys) = insList k v xs ++ (a, w) :: ys := by
  induction xs with
  | nil => simp [insList, h]
  | cons p xs ih =>
    obtain ⟨b, u⟩ := p
    rw [List.cons_append]
    simp only [insList]
    split
    · rfl
    · split
      · rfl
      · rw [ih]; rfl

theorem insList_append_gt {k a : Int} (v w : V) (xs ys : List (Int × V)) (h : a < k)
    (hx : ∀ p ∈ xs, p.1 < k) :
    insList k v (xs ++ (a, w) :: ys) = xs ++ (a, w) :: insList k v ys := by
  induction xs with
  | nil =>
    have h1 : ¬ k < a := by omega
    have h2 : ¬ k = a := by omega
    simp [insList, h1, h2]
  | cons p xs ih =>
    obtain ⟨b, u⟩ := p
    have hb : b < k := hx (b, u) (List.mem_cons_self _ _)
    have h1 : ¬ k < b := by omega
    have h2 : ¬ k = b := by omega
    rw [List.cons_append]
    simp only [insList, if_neg h1, if_neg h2]
    rw [ih (fun p hp => hx p (List.mem_cons_of_mem _ hp)), List.cons_append]

theorem insList_append_eq {k : Int} (v w : V) (xs ys : List (Int × V))
    (hx : ∀ p ∈ xs, p.1 < k) :
    insList k v (xs ++ (k, w) :: ys) = xs ++ (k, w) :: ys := by
  induction xs with
  | nil => simp [insList]
  | cons p xs ih =>
    obtain ⟨b, u⟩ := p
    have hb : b < k := hx (b, u) (List.mem_cons_self _ _)
    have h1 : ¬ k < b := by omega
    have h2 : ¬ k = b := by omega
    rw [List.cons_append]
    simp only [insList, if_neg h1, if_neg h2]
    rw [ih (fun p hp => hx p (List.mem_cons_of_mem _ hp))]

theorem insertNode_toList (k : Int) (v : V) {t t' : Node V} (ho : Ordered t)
    (h : insertNode t k v = some t') : toList t' = insList k v (toList t) := by
  induction t generalizing t' with
  | null =>
    simp only [insertNode] at h
    rw [balanceTree_toList h]
    simp [toList, insList]
  | mk id d c l r ihl ihr =>
    obtain ⟨ol, or, hlt, hgt⟩ := ordered_mk.mp ho
    have hl' : ∀ p ∈ toList l, p.1 < id := fun p hp =>
      hlt p.1 (mem_keys_iff.mpr ⟨p.2, hp⟩)
    simp only [insertNode] at h
    by_cases c1 : k < id
    · rw [if_pos c1] at h
      cases e : insertNode l k v with
      | none => simp [e] at h
      | some l' =>
        simp only [e] at h
        rw [balanceTree_toList h]
        simp only [toList]
        rw [ihl ol e, insList_append_lt v d _ _ c1]
    · rw [if_neg c1] at h
      by_cases c2 : k > id
      · rw [if_pos c2] at h
        cases e : insertNode r k v with
        | none => simp [e] at h
        | some r' =>
          simp only [e] at h
          rw [balanceTree_toList h]
          simp only [toList]
          rw [ihr or e, insList_append_gt v d _ _ c2 (fun p hp => lt_trans (hl' p hp) c2)]
      · rw [if_neg c2] at h
        obtain rfl : k = id := by omega
        rw [balanceTree_toList h]
        simp only [toList]
        rw [insList_append_eq v d _ _ hl']

theorem insList_mem {k : Int} {v : V} {xs : List (Int × V)} {p : Int × V}
    (h : p ∈ insList k v xs) : p = (k, v) ∨ p ∈ xs := by
  induction xs with
  | nil => simpa [insList] using h
  | cons q xs ih =>
    obtain ⟨a, w⟩ := q
    simp only [insList] at h
    split at h
    · simpa using h
    · split at h
      · exact Or.inr h
      · rcases List.mem_cons.mp h with h | h
        · exact Or.inr (h ▸ List.mem_cons_self _ _)
        · rcases ih h with h | h
          · exact Or.inl h
          · exact Or.inr (List.mem_cons_of_mem _ h)

theorem insList_pairwise (k : Int) (v : V) {xs : List (Int × V)}
    (h : (xs.map Prod.fst).Pairwise (fun a b => a < b)) :
    ((insList k v xs).map Prod.fst).Pairwise (fun a b => a < b) := by
  induction xs with
  | nil => simp [insList]
  | cons q xs ih =>
    obtain ⟨a, w⟩ := q
    simp only [List.map_cons, List.pairwise_cons, List.mem_map, Prod.exists,
      exists_and_right, exists_eq_right] at h
    obtain ⟨h1, h2⟩ := h
    simp only [insList]
    split
    · rename_i hk
      simp only [List.map_cons, List.pairwise_cons, List.mem_cons, List.mem_map, Prod.exists,
        exists_and_right, exists_eq_right]
      refine ⟨?_, h1, h2⟩
      rintro b (rfl | ⟨u, hb⟩)
      · exact hk
      · exact lt_trans hk (h1 b ⟨u, hb⟩)
    · split
      · simp only [List.map_cons, List.pairwise_cons, List.mem_map, Prod.exists,
          exists_and_right, exists_eq_right]
        exact ⟨h1, h2⟩
      · rename_i hk1 hk2
        simp only [List.map_cons, List.pairwise_cons, List.mem_map, Prod.exists,
          exists_and_right, exists_eq_right]
        refine ⟨?_, ih h2⟩
        rintro b ⟨u, hb⟩
        rcases insList_mem hb with hb | hb
        · cases hb; omega
        · exact h1 b ⟨u, hb⟩

theorem balanceTree_keys {n n' : Node V} (h : balanceTree n = some n') : keys n' = keys n := by
  simp only [keys, balanceTree_toList h]

theorem findMin_keys {t : Node V} {m : Int} (h : findMin t = some m) :
    ∃ rest, keys t = m :: rest := by
  induction t with
  | null => simp [findMin] at h
  | mk id d c l r ihl _ =>
    rcases l with _ | ⟨lid, ld, lc, ll, lr⟩
    · simp only [findMin, Option.some.injEq] at h
      exact ⟨keys r, by simp [h]⟩
    · simp only [findMin] at h
      obtain ⟨rest, hr⟩ := ihl h
      exact ⟨rest ++ id :: keys r, by rw [keys_mk, hr]; rfl⟩

theorem filter_ne_self {xs : List Int} {k : Int} (h : ∀ a ∈ xs, a ≠ k) :
    xs.filter (fun a => decide (a ≠ k)) = xs := by
  rw [List.filter_eq_self]
  intro a ha
  simpa using h a ha

theorem deleteNode_keys (k : Int) {t t' : Node V} (ho : Ordered t)
    (h : deleteNode k t = some t') : keys t' = (keys t).filter (fun a => decide (a ≠ k)) := by
  induction t generalizing k t' with
  | null =>
    simp only [deleteNode, Option.some.injEq] at h
    subst h; rfl
  | mk id d c l r ihl ihr =>
    obtain ⟨ol, or, hlt, hgt⟩ := ordered_mk.mp ho
    by_cases c1 : k < id
    · rw [deleteNode_lt d c l r c1] at h
      cases e : deleteNode k l with
      | none => simp [e] at h
      | some l' =>
        simp only [e, Option.bind] at h
        have hid : id ≠ k := by omega
        have fr : (keys r).filter (fun a => decide (a ≠ k)) = keys r :=
          filter_ne_self (fun a ha => by have := hgt a ha; omega)
        rw [balanceTree_keys h, keys_mk, keys_mk, ihl k ol e, List.filter_append,
          List.filter_cons_of_pos (by simpa using hid), fr]
    · by_cases c2 : id < k
      · rw [deleteNode_gt d c l r c2] at h
        cases e : deleteNode k r with
        | none => simp [e] at h
        | some r' =>
          simp only [e, Option.bind] at h
          have hid : id ≠ k := by omega
          have fl : (keys l).filter (fun a => decide (a ≠ k)) = keys l :=
            filter_ne_self (fun a ha => by have := hlt a ha; omega)
          rw [balanceTree_keys h, keys_mk, keys_mk, ihr k or e, List.filter_append,
            List.filter_cons_of_pos (by simpa using hid), fl]
      · obtain rfl : k = id := by omega
        have fl : (keys l).filter (fun a => decide (a ≠ k)) = keys l :=
          filter_ne_self (fun a ha => by have := hlt a ha; omega)
        have fr : (keys r).filter (fun a => decide (a ≠ k)) = keys r :=
          filter_ne_self (fun a ha => by have := hgt a ha; omega)
        have fk : (keys (Node.mk k d c l r)).filter (fun a => decide (a ≠ k)) =
            keys l ++ keys r := by
          rw [keys_mk, List.filter_append, List.filter_cons_of_neg (by simp), fl, fr]
        rw [fk]
        rcases l with _ | ⟨lid, ld, lc, ll, lr⟩
        · rw [deleteNode_left_null] at h
          rw [balanceTree_keys h]; simp
        · rcases r with _ | ⟨rid, rd, rc, rl, rr⟩
          · rw [deleteNode_right_null] at h
            rw [balanceTree_keys h]; simp
          · rw [deleteNode_both] at h
            cases em : findMin (Node.mk rid rd rc rl rr) with
            | none => simp [em] at h
            | some m =>
              simp only [em, Option.bind] at h
              cases e : deleteNode m (Node.mk rid rd rc rl rr) with
              | none => simp [e] at h
              | some r' =>
                simp only [e] at h
                obtain ⟨rest, hrest⟩ := findMin_keys em
                have hp : (m :: rest).Pairwise (fun a b => a < b) := hrest ▸ or
                have hr' : keys r' = rest := by
                  rw [ihr m or e, hrest, List.filter_cons_of_neg (by simp)]
                  exact filter_ne_self (fun a ha => by
                    have := (List.pairwise_cons.mp hp).1 a ha; omega)
                rw [balanceTree_keys h, keys_mk, hr', hrest]

theorem searchNode_iff (k : Int) {t : Node V} (ho : Ordered t) :
    searchNode t k = true ↔ k ∈ keys t := by
  induction t with
  | null => simp [searchNode]
  | mk id d c l r ihl ihr =>
    obtain ⟨ol, or, hlt, hgt⟩ := ordered_mk.mp ho
    simp only [searchNode, keys_mk, List.mem_append, List.mem_cons]
    by_cases c1 : k < id
    · rw [if_pos c1, ihl ol]
      constructor
      · exact Or.inl
      · rintro (h | rfl | h)
        · exact h
        · omega
        · have := hgt k h; omega
    · rw [if_neg c1]
      by_cases c2 : k > id
      · rw [if_pos c2, ihr or]
        constructor
        · exact fun h => Or.inr (Or.inr h)
        · rintro (h | rfl | h)
          · have := hlt k h; omega
          · omega
          · exact h
      · rw [if_neg c2]
        have : k = id := by omega
        simp [this]

theorem insList_split (k : Int) (v : V) {xs : List (Int × V)}
    (h : (xs.map Prod.fst).Pairwise (fun a b => a < b)) (hk : k ∉ xs.map Prod.fst) :
    ∃ pre post, xs = pre ++ post ∧ insList k v xs = pre ++ (k, v) :: post ∧
      (∀ p ∈ pre, p.1 < k) ∧ (∀ p ∈ post, k < p.1) := by
  induction xs with
  | nil => exact ⟨[], [], rfl, rfl, by simp, by simp⟩
  | cons q xs ih =>
    obtain ⟨a, w⟩ := q
    simp only [List.map_cons, List.pairwise_cons, List.mem_map, Prod.exists,
      exists_and_right, exists_eq_right] at h
    obtain ⟨h1, h2⟩ := h
    simp only [List.map_cons, List.mem_cons, not_or] at hk
    obtain ⟨hka, hk⟩ := hk
    by_cases c1 : k < a
    · refine ⟨[], (a, w) :: xs, rfl, by simp [insList, c1], by simp, ?_⟩
      intro p hp
      rcases List.mem_cons.mp hp with rfl | hp
      · exact c1
      · exact lt_trans c1 (h1 p.1 ⟨p.2, hp⟩)
    · obtain ⟨pre, post, e1, e2, e3, e4⟩ := ih h2 hk
      refine ⟨(a, w) :: pre, post, by rw [e1]; rfl, ?_, ?_, e4⟩
      · simp only [insList, if_neg c1, if_neg hka, e2]; rfl
      · intro p hp
        rcases List.mem_cons.mp hp with rfl | hp
        · show a < k; omega
        · exact e3 p hp

theorem insList_mem_keys (k : Int) (v : V) (xs : List (Int × V)) (a : Int) :
    a ∈ (insList k v xs).map Prod.fst ↔ a = k ∨ a ∈ xs.map Prod.fst := by
  induction xs with
  | nil => simp [insList]
  | cons q xs ih =>
    obtain ⟨b, w⟩ := q
    simp only [insList]
    split
    · simp
    · split
      · rename_i hk
        simp only [List.map_cons, List.mem_cons]
        constructor
        · exact Or.inr
        · rintro (h | h)
          · exact Or.inl (h.trans hk)
          · exact h
      · simp only [List.map_cons, List.mem_cons, ih]
        tauto

theorem size_eq_length (t : Node V) : size t = (toList t).length := by
  induction t with
  | null => rfl
  | mk id d c l r ihl ihr => simp only [size, toList, List.length_append, List.length_cons]; omega

theorem Inv.balanced {t : Node V} (h : Inv t) : Balanced t := by
  induction t with
  | null => trivial
  | mk id d c l r ihl ihr =>
    simp only [Inv] at h
    obtain ⟨hl, hr, _, b1, b2⟩ := h
    exact ⟨abs_le.mpr ⟨by omega, by omega⟩, ihl hl, ihr hr⟩

theorem Inv.heightsCorrect {t : Node V} (h : Inv t) : HeightsCorrect t := by
  induction t with
  | null => trivial
  | mk id d c l r ihl ihr =>
    simp only [Inv] at h
    obtain ⟨hl, hr, hc, _, _⟩ := h
    exact ⟨hc, ihl hl, ihr hr⟩

theorem Ordered.bst {t : Node V} (h : Ordered t) : BST t := by
  induction t with
  | null => trivial
  | mk id d c l r ihl ihr =>
    obtain ⟨ol, or, hlt, hgt⟩ := ordered_mk.mp h
    exact ⟨hlt, hgt, ihl ol, ihr or⟩

theorem applyOp_spec (op : Op V) {t : Node V} (hi : Inv t) (ho : Ordered t) :
    ∃ t', applyOp t op = some t' ∧ Inv t' ∧ Ordered t' ∧
      ∀ k, (k ∈ keys t' ↔ Op.touch k (decide (k ∈ keys t)) op = true) := by
  cases op with
  | insert id data =>
    obtain ⟨t', e, it', _⟩ := insertNode_inv id data hi
    have hl := insertNode_toList id data ho e
    refine ⟨t', e, it', ?_, ?_⟩
    · simp only [Ordered, keys, hl]
      exact insList_pairwise id data ho
    · intro k
      simp only [keys, hl, insList_mem_keys, Op.touch]
      by_cases c : id = k
      · simp [c]
      · have c' : ¬ k = id := fun h => c h.symm
        simp [c, c']
  | delete id =>
    obtain ⟨t', e, it', _⟩ := deleteNode_inv id hi
    have hk := deleteNode_keys id ho e
    refine ⟨t', e, it', ?_, ?_⟩
    · simp only [Ordered, hk]
      exact List.Pairwise.filter _ ho
    · intro k
      simp only [hk, List.mem_filter, Op.touch]
      by_cases c : id = k
      · simp [c]
      · have c' : ¬ k = id := fun h => c h.symm
        simp [c, c']

theorem run_spec (ops : List (Op V)) {t : Node V} (hi : Inv t) (ho : Ordered t) :
    ∃ t', run ops t = some t' ∧ Inv t' ∧ Ordered t' ∧
      ∀ k, (k ∈ keys t' ↔ ops.foldl (Op.touch k) (decide (k ∈ keys t)) = true) := by
  induction ops generalizing t with
  | nil => exact ⟨t, rfl, hi, ho, fun k => by simp⟩
  | cons op ops ih =>
    obtain ⟨t1, e1, i1, o1, m1⟩ := applyOp_spec op hi ho
    obtain ⟨t2, e2, i2, o2, m2⟩ := ih i1 o1
    refine ⟨t2, by simp only [run, e1, e2], i2, o2, ?_⟩
    intro k
    rw [m2 k, List.foldl_cons]
    congr! 2
    rw [Bool.eq_iff_iff, decide_eq_true_iff]
    exact m1 k

theorem Reachable.inv {t : Node V} (h : Reachable t) : Inv t ∧ Ordered t := by
  obtain ⟨ops, e⟩ := h
  obtain ⟨t', e', i, o, _⟩ := @run_spec V ops Node.null trivial List.Pairwise.nil
  rw [e] at e'
  cases e'
  exact ⟨i, o⟩

theorem foldl_touch_true (k : Int) (ops : List (Op V)) (h : Op.delete k ∉ ops) :
    ops.foldl (Op.touch k) true = true := by
  induction ops with
  | nil => rfl
  | cons op ops ih =>
    simp only [List.mem_cons, not_or] at h
    rw [List.foldl_cons]
    have : Op.touch k true op = true := by
      cases op with
      | insert id d => simp [Op.touch]
      | delete id =>
        simp only [Op.touch]
        have : id ≠ k := fun e => h.1 (by rw [e])
        simp [this]
    rw [this]; exact ih h.2

theorem foldl_touch_false (k : Int) (ops : List (Op V)) (h : ∀ v, Op.insert k v ∉ ops) :
    ops.foldl (Op.touch k) false = false := by
  induction ops with
  | nil => rfl
  | cons op ops ih =>
    rw [List.foldl_cons]
    have : Op.touch k false op = false := by
      cases op with
      | delete id => simp [Op.touch]
      | insert id d =>
        simp only [Op.touch]
        have : id ≠ k := fun e => h d (by rw [e]; exact List.mem_cons_self _ _)
        simp [this]
    rw [this]; exact ih (fun v hv => h v (List.mem_cons_of_mem _ hv))

theorem deleteNode_of_not_mem (k : Int) {t : Node V} (hi : Inv t) (hk : k ∉ keys t) :
    deleteNode k t = some t := by
  induction t with
  | null => rfl
  | mk id d c l r ihl ihr =>
    have hi' := hi
    simp only [Inv] at hi'
    obtain ⟨hl, hr, _, _, _⟩ := hi'
    simp only [keys_mk, List.mem_append, List.mem_cons, not_or] at hk
    obtain ⟨kl, kid, kr⟩ := hk
    by_cases c1 : k < id
    · rw [deleteNode_lt d c l r c1, ihl hl kl]
      exact balanceTree_id hi
    · have c2 : id < k := by omega
      rw [deleteNode_gt d c l r c2, ihr hr kr]
      exact balanceTree_id hi

theorem insertNode_of_mem (k : Int) (v : V) {t : Node V} (hi : Inv t) (ho : Ordered t)
    (hk : k ∈ keys t) : insertNode t k v = some t := by
  induction t with
  | null => simp at hk
  | mk id d c l r ihl ihr =>
    have hi' := hi
    simp only [Inv] at hi'
    obtain ⟨hl, hr, _, _, _⟩ := hi'
    obtain ⟨ol, or, hlt, hgt⟩ := ordered_mk.mp ho
    simp only [keys_mk, List.mem_append, List.mem_cons] at hk
    simp only [insertNode]
    by_cases c1 : k < id
    · have kl : k ∈ keys l := by
        rcases hk with h | h | h
        · exact h
        · omega
        · have := hgt k h; omega
      rw [if_pos c1, ihl hl ol kl]
      exact balanceTree_id hi
    · rw [if_neg c1]
      by_cases c2 : k > id
      · have kr : k ∈ keys r := by
          rcases hk with h | h | h
          · have := hlt k h; omega
          · omega
          · exact h
        rw [if_pos c2, ihr hr or kr]
        exact balanceTree_id hi
      · rw [if_neg c2]
        exact balanceTree_id hi

theorem size_lower {t : Node V} (hi : Inv t) (n : Nat) (hn : (n : Int) ≤ height t) :
    2 ^ (n / 2) ≤ size t := by
  induction t generalizing n with
  | null => simp only [height] at hn; omega
  | mk id d c l r ihl ihr =>
    simp only [Inv] at hi
    obtain ⟨hl, hr, _, b1, b2⟩ := hi
    simp only [height] at hn
    simp only [size]
    rcases Nat.lt_or_ge n 2 with h2 | h2
    · have : n / 2 = 0 := by omega
      rw [this, pow_zero]; omega
    · obtain ⟨m, rfl⟩ : ∃ m, n = m + 2 := ⟨n - 2, by omega⟩
      have e1 := ihl hl m (by push_cast at hn; omega)
      have e2 := ihr hr m (by push_cast at hn; omega)
      have : (m + 2) / 2 = m / 2 + 1 := by omega
      rw [this, pow_succ]
      omega

/-! ## The claims -/

/-- C1 (search correctness): every finite sequence of `insertNode` and
`deleteNode` calls on `head`, started on the empty tree, runs to completion, and
afterwards `searchNode k` is `true` when `k` was inserted and not deleted later,
and `false` when `k` was never inserted or was deleted after its last insert. -/
theorem searchNode_after_run (ops : List (Op V)) :
    ∃ t, run ops .null = some t ∧ ∀ k : Int,
      ((∃ pre v post, ops = pre ++ Op.insert k v :: post ∧ Op.delete k ∉ post) →
          searchNode t k = true) ∧
      (((∀ v, Op.insert k v ∉ ops) ∨
          (∃ pre post, ops = pre ++ Op.delete k :: post ∧ ∀ v, Op.insert k v ∉ post)) →
          searchNode t k = false) := by
  obtain ⟨t, e, _, o, m⟩ := @run_spec V ops Node.null trivial List.Pairwise.nil
  refine ⟨t, e, fun k => ⟨?_, ?_⟩⟩
  · rintro ⟨pre, v, post, rfl, hpost⟩
    rw [searchNode_iff k o, m k, List.foldl_append, List.foldl_cons]
    have : Op.touch k (List.foldl (Op.touch k) (decide (k ∈ keys (Node.null : Node V))) pre)
        (Op.insert k v) = true := by simp [Op.touch]
    rw [this]
    exact foldl_touch_true k post hpost
  · intro h
    have hm : ¬ (k ∈ keys t) := by
      rw [m k]
      rcases h with h | ⟨pre, post, rfl, hpost⟩
      · simp [foldl_touch_false k ops h]
      · rw [List.foldl_append, List.foldl_cons]
        have : Op.touch k (List.foldl (Op.touch k) (decide (k ∈ keys (Node.null : Node V))) pre)
            (Op.delete k : Op V) = false := by simp [Op.touch]
        rw [this]
        simp [foldl_touch_false k post hpost]
    rw [← searchNode_iff k o] at hm
    simpa using hm


theorem searchNode_after_run_witness :
    ∃ t, run sampleCalls .null = some t ∧
      searchNode t 10 = true ∧ searchNode t 20 = false ∧ searchNode t 7 = false := by
  obtain ⟨t, e, h⟩ := searchNode_after_run sampleCalls
  refine ⟨t, e, (h 10).1 ⟨[], 100, [Op.insert 20 200, Op.delete 20], rfl, by decide⟩,
    (h 20).2 (Or.inr ⟨[Op.insert 10 100, Op.insert 20 200], [], rfl, by simp⟩),
    (h 7).2 (Or.inl (fun v hv => by simp [sampleCalls] at hv))⟩

theorem sampleTree_reachable : Reachable sampleTree := ⟨sampleOps, rfl⟩

/-- C2 (balance invariant): in every tree reachable from the empty tree by
`insertNode`/`deleteNode` calls on `head`, every node has
`|height(left) - height(right)| ≤ 1` for the recursively defined height. -/
theorem reachable_balanced {t : Node V} (h : Reachable t) : Balanced t :=
  h.inv.1.balanced

theorem reachable_balanced_witness : Reachable sampleTree ∧ Balanced sampleTree :=
  ⟨sampleTree_reachable, reachable_balanced sampleTree_reachable⟩

/-- C3 (BST ordering invariant): in every reachable tree the in-order key
sequence is strictly ascending; hence at every node the left keys are smaller
and the right keys larger, and no key occurs twice. -/
theorem reachable_ordered {t : Node V} (h : Reachable t) :
    (keys t).Pairwise (fun a b => a < b) ∧ BST t ∧ (keys t).Nodup :=
  ⟨h.inv.2, h.inv.2.bst, List.Pairwise.imp (fun hab => ne_of_lt hab) h.inv.2⟩

theorem reachable_ordered_witness :
    Reachable sampleTree ∧
      ((keys sampleTree).Pairwise (fun a b => a < b) ∧ BST sampleTree ∧
        (keys sampleTree).Nodup) :=
  ⟨sampleTree_reachable, reachable_ordered sampleTree_reachable⟩

/-- C4 (height correctness): in every reachable tree, every node's cached
`height` field equals the recursively defined height of its subtree. -/
theorem reachable_heightsCorrect {t : Node V} (h : Reachable t) : HeightsCorrect t :=
  h.inv.1.heightsCorrect

theorem reachable_heightsCorrect_witness :
    Reachable sampleTree ∧ HeightsCorrect sampleTree :=
  ⟨sampleTree_reachable, reachable_heightsCorrect sampleTree_reachable⟩

/-- C5 (logarithmic height): a non-empty reachable tree with `n` nodes and
root height `h` has `n ≥ 2 ^ ⌊h / 2⌋`, hence `h ≤ 2 * log2 n + 1`. -/
theorem reachable_logarithmic_height {t : Node V} (h : Reachable t) (hne : t ≠ .null) :
    2 ^ ((nodeHeight t).toNat / 2) ≤ size t ∧
      nodeHeight t ≤ 2 * (Nat.log 2 (size t) : Int) + 1 := by
  have hi := h.inv.1
  have e := nodeHeight_eq_height hi
  have h0 : 0 ≤ height t := by
    rcases t with _ | ⟨id, d, c, l, r⟩
    · exact absurd rfl hne
    · have := height_ge l
      simp only [height]; omega
  have hb : 2 ^ ((nodeHeight t).toNat / 2) ≤ size t :=
    size_lower hi (nodeHeight t).toNat (by rw [e]; omega)
  refine ⟨hb, ?_⟩
  have hl := Nat.le_log_of_pow_le (by norm_num) hb
  omega

theorem reachable_logarithmic_height_witness :
    Reachable sampleTree ∧ sampleTree ≠ .null ∧
      2 ^ ((nodeHeight sampleTree).toNat / 2) ≤ size sampleTree ∧
      nodeHeight sampleTree ≤ 2 * (Nat.log 2 (size sampleTree) : Int) + 1 :=
  ⟨sampleTree_reachable, by decide,
    reachable_logarithmic_height sampleTree_reachable (by decide)⟩

/-- C6 (insert postcondition): on a reachable tree `t` not holding `k`,
`insertNode(head, k, v)` returns, adds exactly one node, and the in-order
sequence of `(key, value)` pairs afterwards is the one of `t` with `(k, v)` put
at its sorted position, every old pair unchanged. -/
theorem insertNode_postcondition {t : Node V} (h : Reachable t) (k : Int) (v : V)
    (hk : k ∉ keys t) :
    ∃ t', insertNode t k v = some t' ∧ size t' = size t + 1 ∧
      ∃ pre post, toList t = pre ++ post ∧ toList t' = pre ++ (k, v) :: post ∧
        (∀ p ∈ pre, p.1 < k) ∧ (∀ p ∈ post, k < p.1) := by
  obtain ⟨hi, ho⟩ := h.inv
  obtain ⟨t', e, _, _⟩ := insertNode_inv k v hi
  have hl := insertNode_toList k v ho e
  obtain ⟨pre, post, e1, e2, e3, e4⟩ := insList_split k v ho hk
  refine ⟨t', e, ?_, pre, post, e1, hl.trans e2, e3, e4⟩
  rw [size_eq_length, size_eq_length, hl, e2, e1]
  simp only [List.length_append, List.length_cons]
  omega

theorem insertNode_postcondition_witness :
    Reachable sampleTree ∧ 7 ∉ keys sampleTree ∧
      ∃ t', insertNode sampleTree 7 70 = some t' ∧ size t' = size sampleTree + 1 ∧
        ∃ pre post, toList sampleTree = pre ++ post ∧ toList t' = pre ++ (7, 70) :: post ∧
          (∀ p ∈ pre, p.1 < 7) ∧ (∀ p ∈ post, 7 < p.1) :=
  ⟨sampleTree_reachable, by decide,
    insertNode_postcondition sampleTree_reachable 7 70 (by decide)⟩

/-- C7 (delete postcondition on keys): on a reachable tree `t` holding `k`,
`deleteNode(k, head)` returns, removes exactly one node, and the in-order key
sequence afterwards is the one of `t` with `k` taken out. -/
theorem deleteNode_postcondition_keys {t : Node V} (h : Reachable t) (k : Int)
    (hk : k ∈ keys t) :
    ∃ t', deleteNode k t = some t' ∧ size t' + 1 = size t ∧
      ∃ pre post, keys t = pre ++ k :: post ∧ keys t' = pre ++ post ∧
        k ∉ pre ∧ k ∉ post := by
  obtain ⟨hi, ho⟩ := h.inv
  obtain ⟨t', e, _, _⟩ := deleteNode_inv k hi
  have hd := deleteNode_keys k ho e
  obtain ⟨pre, post, hs⟩ := List.append_of_mem hk
  have hp : (pre ++ k :: post).Pairwise (fun a b => a < b) := hs ▸ ho
  rw [List.pairwise_append, List.pairwise_cons] at hp
  obtain ⟨_, ⟨hpost, _⟩, hpre⟩ := hp
  have npre : k ∉ pre := fun hm => lt_irrefl k (hpre k hm k (List.mem_cons_self _ _))
  have npost : k ∉ post := fun hm => lt_irrefl k (hpost k hm)
  have fpre : pre.filter (fun a => decide (a ≠ k)) = pre :=
    filter_ne_self (fun a ha hak => npre (hak ▸ ha))
  have fpost : post.filter (fun a => decide (a ≠ k)) = post :=
    filter_ne_self (fun a ha hak => npost (hak ▸ ha))
  have hk' : keys t' = pre ++ post := by
    rw [hd, hs, List.filter_append, List.filter_cons_of_neg (by simp), fpre, fpost]
  refine ⟨t', e, ?_, pre, post, hs, hk', npre, npost⟩
  have l1 : size t' = (keys t').length := by rw [size_eq_length, keys, List.length_map]
  have l2 : size t = (keys t).length := by rw [size_eq_length, keys, List.length_map]
  rw [l1, l2, hk', hs]
  simp only [List.length_append, List.length_cons]
  omega

theorem deleteNode_postcondition_keys_witness :
    Reachable sampleTree ∧ 10 ∈ keys sampleTree ∧
      ∃ t', deleteNode 10 sampleTree = some t' ∧ size t' + 1 = size sampleTree ∧
        ∃ pre post, keys sampleTree = pre ++ 10 :: post ∧ keys t' = pre ++ post ∧
          10 ∉ pre ∧ 10 ∉ post :=
  ⟨sampleTree_reachable, by decide,
    deleteNode_postcondition_keys sampleTree_reachable 10 (by decide)⟩

/-- C8 (failing input): `sampleTree` holds key 20 with value 200 and has a
root with two children.  `deleteNode(10, head)` returns a tree in which key 20
carries the value 100 of the deleted key 10: only `id` is copied from the
in-order successor, and the successor's value 200 is gone. -/
theorem deleteNode_two_children_data :
    Reachable sampleTree ∧ toList sampleTree = [(5, 50), (10, 100), (20, 200)] ∧
      deleteNode 10 sampleTree = some (.mk 20 100 1 (.mk 5 50 0 .null .null) .null) ∧
      toList (Node.mk 20 (100 : Int) 1 (.mk 5 50 0 .null .null) .null) =
        [(5, 50), (20, 100)] :=
  ⟨sampleTree_reachable, by decide, by decide, by decide⟩

/-- C9 (deleting an absent key is a no-op): on a reachable tree `t` not holding
`k`, `deleteNode(k, head)` returns the very same tree: same shape, keys,
values and cached heights. -/
theorem deleteNode_absent_noop {t : Node V} (h : Reachable t) (k : Int)
    (hk : k ∉ keys t) : deleteNode k t = some t :=
  deleteNode_of_not_mem k h.inv.1 hk

theorem deleteNode_absent_noop_witness :
    Reachable sampleTree ∧ 7 ∉ keys sampleTree ∧ deleteNode 7 sampleTree = some sampleTree :=
  ⟨sampleTree_reachable, by decide,
    deleteNode_absent_noop sampleTree_reachable 7 (by decide)⟩

/-- C10 (inserting an existing key is inert): on a reachable tree `t` holding
`k`, `insertNode(head, k, v)` returns the very same tree for every `v`: same
shape, keys and cached heights, and the value stored under `k` is kept. -/
theorem insertNode_existing_inert {t : Node V} (h : Reachable t) (k : Int) (v : V)
    (hk : k ∈ keys t) : insertNode t k v = some t :=
  insertNode_of_mem k v h.inv.1 h.inv.2 hk

theorem insertNode_existing_inert_witness :
    Reachable sampleTree ∧ 20 ∈ keys sampleTree ∧
      insertNode sampleTree 20 999 = some sampleTree :=
  ⟨sampleTree_reachable, by decide,
    insertNode_existing_inert sampleTree_reachable 20 999 (by decide)⟩

/-! ## Copy, move and the remaining behaviour claims -/

theorem searchNode_data (id : Int) (d d' : V) (c : Int) (l r : Node V) (k : Int) :
    searchNode (.mk id d' c l r) k = searchNode (.mk id d c l r) k := by
  simp only [searchNode]

/-- C11 (counterexample): the copy constructor applied to the three-node
`sampleTree`, and the copy assignment of it to an empty destination, give a
tree whose in-order sequence differs from the one of `sampleTree` and on which
`searchNode 20` is `false` although it is `true` on `sampleTree`. -/
theorem copy_not_deep :
    toList (copyConstructor (fun x => x) ⟨sampleTree⟩).1.head ≠ toList sampleTree ∧
    searchNode (copyConstructor (fun x => x) ⟨sampleTree⟩).1.head 20 = false ∧
    toList (copyAssign (fun x => x) ⟨.null⟩ ⟨sampleTree⟩).1.head ≠ toList sampleTree ∧
    searchNode (copyAssign (fun x => x) ⟨.null⟩ ⟨sampleTree⟩).1.head 20 = false ∧
    searchNode sampleTree 20 = true := by
  decide

/-- C11 (amended): the copy constructor, and the copy assignment to an empty
destination, give the empty tree when the source is empty and otherwise one
node with the key and value of the source's root, no children and cached
height 0, on which `searchNode` is `true` exactly for that root key; the copy
assignment to a non-empty destination gives the destination the whole tree of
a non-empty source, and the empty tree for an empty source. -/
theorem copy_root_only (movedFrom : V → V) (id : Int) (d : V) (c : Int) (l r : Node V)
    (sid : Int) (sd : V) (sc : Int) (sl sr : Node V) (b : AVL V) (k : Int) :
    (copyConstructor movedFrom ⟨.null⟩).1 = ⟨.null⟩ ∧
    (copyConstructor movedFrom ⟨.mk id d c l r⟩).1 = ⟨.mk id d 0 .null .null⟩ ∧
    (copyAssign movedFrom b ⟨.null⟩).1 = ⟨.null⟩ ∧
    (copyAssign movedFrom ⟨.null⟩ ⟨.mk id d c l r⟩).1 = ⟨.mk id d 0 .null .null⟩ ∧
    (copyAssign movedFrom ⟨.mk sid sd sc sl sr⟩ ⟨.mk id d c l r⟩).1 = ⟨.mk id d c l r⟩ ∧
    (searchNode (Node.mk id d 0 .null .null) k = true ↔ k = id) := by
  refine ⟨rfl, rfl, rfl, rfl, rfl, ?_⟩
  simp only [searchNode]
  constructor
  · intro h
    by_contra hne
    rcases lt_or_gt_of_ne hne with h1 | h1
    · simp [h1] at h
    · have h2 : ¬ k < id := by omega
      simp [h2, h1] at h
  · rintro rfl
    simp

/-- C13 (move transfers the whole tree): after move construction or move
assignment from `a`, the destination holds exactly the former tree of `a`
(shape, keys, values and cached heights), whatever it held before, and `a` is
empty, so `searchNode` on `a` is `false` for every key. -/
theorem move_transfers_tree (a b : AVL V) (k : Int) :
    (moveConstructor a).1 = a ∧ (moveConstructor a).2.head = .null ∧
    (moveAssign b a).1 = a ∧ (moveAssign b a).2.head = .null ∧
    searchNode (moveConstructor a).2.head k = false ∧
    searchNode (moveAssign b a).2.head k = false :=
  ⟨rfl, rfl, rfl, rfl, rfl, rfl⟩

/-- C14 (concrete insert scenario): inserting 10, 20, 5, 25, 7 into the empty
tree gives root 10 with height 2, left child 5 whose right child is 7, and
right child 20 whose right child is 25; inserting 2, 3, 4 next gives root 10
with height 3, left child 5 with right child 7 and left child 3, the latter
with children 2 and 4, and right child 20.  The value stored with key `k` is
`d k`. -/
theorem insert_scenario (d : Int → V) :
    run [.insert 10 (d 10), .insert 20 (d 20), .insert 5 (d 5), .insert 25 (d 25),
        .insert 7 (d 7)] .null =
      some (.mk 10 (d 10) 2
        (.mk 5 (d 5) 1 .null (.mk 7 (d 7) 0 .null .null))
        (.mk 20 (d 20) 1 .null (.mk 25 (d 25) 0 .null .null))) ∧
    run [.insert 10 (d 10), .insert 20 (d 20), .insert 5 (d 5), .insert 25 (d 25),
        .insert 7 (d 7), .insert 2 (d 2), .insert 3 (d 3), .insert 4 (d 4)] .null =
      some (.mk 10 (d 10) 3
        (.mk 5 (d 5) 2
          (.mk 3 (d 3) 1 (.mk 2 (d 2) 0 .null .null) (.mk 4 (d 4) 0 .null .null))
          (.mk 7 (d 7) 0 .null .null))
        (.mk 20 (d 20) 1 .null (.mk 25 (d 25) 0 .null .null))) :=
  ⟨rfl, rfl⟩

/-- C15 (concrete delete scenario): inserting 20, 12, 3 into the empty tree
gives root 12 with height 1, left child 3 and right child 20; `deleteNode(20)`
then `deleteNode(12)` leave the single node 3 as root, with `searchNode(20)`
and `searchNode(12)` both `false`; a final `deleteNode(3)` leaves the empty
tree, on which `searchNode(3)` is `false`. -/
theorem delete_scenario (d : Int → V) :
    run [.insert 20 (d 20), .insert 12 (d 12), .insert 3 (d 3)] .null =
      some (.mk 12 (d 12) 1 (.mk 3 (d 3) 0 .null .null) (.mk 20 (d 20) 0 .null .null)) ∧
    run [.insert 20 (d 20), .insert 12 (d 12), .insert 3 (d 3), .delete 20] .null =
      some (.mk 12 (d 12) 1 (.mk 3 (d 3) 0 .null .null) .null) ∧
    searchNode (Node.mk 12 (d 12) 1 (.mk 3 (d 3) 0 .null .null) .null) 20 = false ∧
    run [.insert 20 (d 20), .insert 12 (d 12), .insert 3 (d 3), .delete 20, .delete 12] .null =
      some (.mk 3 (d 3) 0 .null .null) ∧
    searchNode (Node.mk 3 (d 3) 0 .null .null) 20 = false ∧
    searchNode (Node.mk 3 (d 3) 0 .null .null) 12 = false ∧
    run [.insert 20 (d 20), .insert 12 (d 12), .insert 3 (d 3), .delete 20, .delete 12,
        .delete 3] .null = some .null ∧
    searchNode (Node.null : Node V) 3 = false :=
  ⟨rfl, rfl, rfl, rfl, rfl, rfl, rfl, rfl⟩

/-- C16 (no access through an absent node): on every reachable tree, every
further `insertNode` and every further `deleteNode` call on `head` returns a
tree.  In the embedding a call returns nothing exactly when `findMin`,
`balanceTree` or a rotation reads a field through an absent node, so no such
read happens. -/
theorem no_null_access {t : Node V} (h : Reachable t) (k : Int) (v : V) :
    (∃ t', insertNode t k v = some t') ∧ (∃ t', deleteNode k t = some t') := by
  obtain ⟨t1, e1, _⟩ := insertNode_inv k v h.inv.1
  obtain ⟨t2, e2, _⟩ := deleteNode_inv k h.inv.1
  exact ⟨⟨t1, e1⟩, ⟨t2, e2⟩⟩

theorem no_null_access_witness :
    Reachable sampleTree ∧ (∃ t', insertNode sampleTree 7 70 = some t') ∧
      (∃ t', deleteNode 10 sampleTree = some t') :=
  ⟨sampleTree_reachable, (no_null_access sampleTree_reachable 7 70).1,
    (no_null_access sampleTree_reachable 10 70).2⟩

/-- C18 (rotations preserve ordering): on every node on which it is defined
(left child present for LLRotation, right child for RRRotation, left child and
its right child for LRRotation, right child and its left child for
RLRotation) the rotation returns a subtree whose in-order sequence of
`(key, value)` pairs is the one before the rotation. -/
theorem rotations_preserve_inorder (id : Int) (d : V) (c : Int) (l r : Node V)
    (cid : Int) (cd : V) (cc : Int) (cl cr : Node V)
    (gid : Int) (gd : V) (gc : Int) (gl gr : Node V) :
    (∃ n, LLRotation (.mk id d c (.mk cid cd cc cl cr) r) = some n ∧
        toList n = toList (.mk id d c (.mk cid cd cc cl cr) r)) ∧
    (∃ n, RRRotation (.mk id d c l (.mk cid cd cc cl cr)) = some n ∧
        toList n = toList (.mk id d c l (.mk cid cd cc cl cr))) ∧
    (∃ n, LRRotation (.mk id d c (.mk cid cd cc cl (.mk gid gd gc gl gr)) r) = some n ∧
        toList n = toList (.mk id d c (.mk cid cd cc cl (.mk gid gd gc gl gr)) r)) ∧
    (∃ n, RLRotation (.mk id d c l (.mk cid cd cc (.mk gid gd gc gl gr) cr)) = some n ∧
        toList n = toList (.mk id d c l (.mk cid cd cc (.mk gid gd gc gl gr) cr))) := by
  refine ⟨⟨_, rfl, ?_⟩, ⟨_, rfl, ?_⟩, ⟨_, rfl, ?_⟩, ⟨_, rfl, ?_⟩⟩ <;>
    simp [toList]

/-- C19 (findMin returns the smallest key): on a non-absent subtree in BST
order, `findMin` returns the key of the leftmost node (the first key of the
in-order sequence), which is a key of the subtree and at most every key of
it. -/
theorem findMin_smallest {t : Node V} (hne : t ≠ .null) (hb : BST t) :
    ∃ m, findMin t = some m ∧ (keys t).head? = some m ∧ m ∈ keys t ∧
      ∀ k ∈ keys t, m ≤ k := by
  induction t with
  | null => exact absurd rfl hne
  | mk id d c l r ihl _ =>
    obtain ⟨hlt, hgt, bl, _⟩ := hb
    rcases l with _ | ⟨lid, ld, lc, ll, lr⟩
    · refine ⟨id, by simp [findMin], by simp, by simp, ?_⟩
      intro k hk
      simp only [keys_mk, keys_null, List.nil_append, List.mem_cons] at hk
      rcases hk with rfl | hk
      · exact le_refl _
      · exact le_of_lt (hgt k hk)
    · obtain ⟨m, e, hh, hm, hle⟩ := ihl (by simp) bl
      refine ⟨m, by simp only [findMin]; exact e, ?_, ?_, ?_⟩
      · rw [keys_mk]
        cases hk : keys (Node.mk lid ld lc ll lr) with
        | nil => rw [hk] at hm; simp at hm
        | cons a as => rw [hk] at hh; simpa using hh
      · rw [keys_mk]; exact List.mem_append_left _ hm
      · intro k hk
        rw [keys_mk, List.mem_append, List.mem_cons] at hk
        have hmid : m < id := hlt m hm
        rcases hk with hk | rfl | hk
        · exact hle k hk
        · exact le_of_lt hmid
        · exact le_of_lt (lt_trans hmid (hgt k hk))

theorem findMin_smallest_witness :
    sampleTree ≠ .null ∧ BST sampleTree ∧
      ∃ m, findMin sampleTree = some m ∧ (keys sampleTree).head? = some m ∧
        m ∈ keys sampleTree ∧ ∀ k ∈ keys sampleTree, m ≤ k :=
  ⟨by decide, sampleTree_reachable.inv.2.bst,
    findMin_smallest (by decide) sampleTree_reachable.inv.2.bst⟩

/-- C20 (height changes by at most one per operation): on a reachable tree
with root height `h` (absent `-1`), the root height after one more `insertNode`
is `h` or `h + 1`, and after one more `deleteNode` it is `h` or `h - 1`; this
holds for the cached root height and for the recursively defined one. -/
theorem height_change_bounded {t : Node V} (h : Reachable t) (k : Int) (v : V) :
    (∃ t', insertNode t k v = some t' ∧
      (nodeHeight t' = nodeHeight t ∨ nodeHeight t' = nodeHeight t + 1) ∧
      (height t' = height t ∨ height t' = height t + 1)) ∧
    (∃ t', deleteNode k t = some t' ∧
      (nodeHeight t' = nodeHeight t ∨ nodeHeight t' = nodeHeight t - 1) ∧
      (height t' = height t ∨ height t' = height t - 1)) := by
  have e := nodeHeight_eq_height h.inv.1
  obtain ⟨t1, e1, i1, h1⟩ := insertNode_inv k v h.inv.1
  obtain ⟨t2, e2, i2, h2⟩ := deleteNode_inv k h.inv.1
  have f1 := nodeHeight_eq_height i1
  have f2 := nodeHeight_eq_height i2
  exact ⟨⟨t1, e1, by omega, h1⟩, ⟨t2, e2, by omega, h2⟩⟩

theorem height_change_bounded_witness :
    Reachable sampleTree ∧
    (∃ t', insertNode sampleTree 7 70 = some t' ∧
      (nodeHeight t' = nodeHeight sampleTree ∨ nodeHeight t' = nodeHeight sampleTree + 1) ∧
      (height t' = height sampleTree ∨ height t' = height sampleTree + 1)) :=
  ⟨sampleTree_reachable, (height_change_bounded sampleTree_reachable 7 70).1⟩

/-! ## Rebalancing in `int` arithmetic -/

@[simp] theorem Heap.write_cells_self (h : Heap V) (a : Nat) (c : Cell V) :
    (h.write a c).cells a = some c := by
  simp [Heap.write]

theorem Heap.write_cells_ne (h : Heap V) {a x : Nat} (c : Cell V) (hx : x ≠ a) :
    (h.write a c).cells x = h.cells x := by
  simp [Heap.write, hx]

@[simp] theorem Heap.write_next (h : Heap V) (a : Nat) (c : Cell V) :
    (h.write a c).next = h.next := rfl

theorem Repr.frame {h h' : Heap V} {t : Node V} {p : Option Nat} {fp : Set Nat}
    (hr : Repr h t p fp) (hf : ∀ a ∈ fp, h'.cells a = h.cells a) : Repr h' t p fp := by
  induction t generalizing p fp with
  | null => exact hr
  | mk id d c l r ihl ihr =>
    obtain ⟨a, pl, pr, fl, fr, hp, hc, rl, rr, n1, n2, dj, hfp⟩ := hr
    subst hfp
    refine ⟨a, pl, pr, fl, fr, hp, ?_, ihl rl ?_, ihr rr ?_, n1, n2, dj, rfl⟩
    · rw [hf a (Set.mem_insert _ _)]; exact hc
    · intro x hx; exact hf x (Set.mem_insert_of_mem _ (Set.mem_union_left _ hx))
    · intro x hx; exact hf x (Set.mem_insert_of_mem _ (Set.mem_union_right _ hx))

theorem Repr.allocated {h : Heap V} {t : Node V} {p : Option Nat} {fp : Set Nat}
    (hr : Repr h t p fp) {a : Nat} (ha : a ∈ fp) : ∃ c, h.cells a = some c := by
  induction t generalizing p fp with
  | null => obtain ⟨_, hfp⟩ := hr; subst hfp; exact absurd ha (Set.not_mem_empty a)
  | mk id d c l r ihl ihr =>
    obtain ⟨b, pl, pr, fl, fr, hp, hc, rl, rr, n1, n2, dj, hfp⟩ := hr
    subst hfp
    rcases ha with rfl | ha | ha
    · exact ⟨_, hc⟩
    · exact ihl rl ha
    · exact ihr rr ha

theorem Repr.lt_next {h : Heap V} {t : Node V} {p : Option Nat} {fp : Set Nat}
    (hr : Repr h t p fp) (wf : h.WF) {a : Nat} (ha : a ∈ fp) : a < h.next := by
  by_contra hge
  obtain ⟨c, hc⟩ := hr.allocated ha
  rw [wf a (by omega)] at hc
  cases hc

theorem Repr.nodeHeight_eq {h : Heap V} {t : Node V} {p : Option Nat} {fp : Set Nat}
    (hr : Repr h t p fp) : Mem.nodeHeight h p = some (AVL.nodeHeight t) := by
  cases t with
  | null => obtain ⟨hp, _⟩ := hr; subst hp; rfl
  | mk id d c l r =>
    obtain ⟨a, pl, pr, fl, fr, hp, hc, _⟩ := hr
    subst hp
    simp [Mem.nodeHeight, hc]

theorem Repr.node {h : Heap V} {l r : Node V} {pl pr : Option Nat} {fl fr : Set Nat}
    (rl : Repr h l pl fl) (rr : Repr h r pr fr) (n : Nat) (id : Int) (d : V) (c : Int)
    (n1 : n ∉ fl) (n2 : n ∉ fr) (dj : ∀ x ∈ fl, x ∉ fr) :
    Repr (h.write n ⟨id, d, c, pl, pr⟩) (.mk id d c l r) (some n) (insert n (fl ∪ fr)) := by
  refine ⟨n, pl, pr, fl, fr, rfl, by simp, rl.frame ?_, rr.frame ?_, n1, n2, dj, rfl⟩
  · intro a ha
    exact Heap.write_cells_ne h _ (fun e => n1 (e ▸ ha))
  · intro a ha
    exact Heap.write_cells_ne h _ (fun e => n2 (e ▸ ha))

theorem Repr.cast {h : Heap V} {t : Node V} {p : Option Nat} {fp fp' : Set Nat}
    (hr : Repr h t p fp) (e : fp = fp') : Repr h t p fp' := e ▸ hr

theorem LLRotation_refines {h : Heap V} {t t' : Node V} {p : Option Nat} {fp : Set Nat}
    (hr : Repr h t p fp) (ht : AVL.LLRotation t = some t') :
    ∃ p' h', Mem.LLRotation h p = some (p', h') ∧ Repr h' t' p' fp ∧ InPlace h fp h' := by
  rcases t with _ | ⟨id, d, c, _ | ⟨lid, ld, lc, ll, lr⟩, r⟩ <;> simp [AVL.LLRotation] at ht
  subst ht
  obtain ⟨n, pl, pr, fl, fr, hp, hcn, rl, rr, n1, n2, dj, hfp⟩ := hr
  obtain ⟨l, pll, plr, fll, flr, hpl, hcl, rll, rlr, l1, l2, djl, hfl⟩ := rl
  subst hp hpl hfp hfl
  have e1 := rll.nodeHeight_eq
  have e2 := rlr.nodeHeight_eq
  have e3 := rr.nodeHeight_eq
  simp only [Set.mem_insert_iff, Set.mem_union, not_or] at n1 dj
  have hnl : n ≠ l := n1.1
  refine ⟨some l,
    (h.write n ⟨id, d, max (AVL.nodeHeight lr) (AVL.nodeHeight r) + 1, plr, pr⟩).write l
      ⟨lid, ld, max (AVL.nodeHeight ll) (max (AVL.nodeHeight lr) (AVL.nodeHeight r) + 1) + 1,
        pll, some n⟩,
    by simp [Mem.LLRotation, hcn, hcl, e1, e2, e3], ?_, ?_⟩
  · have rN := Repr.node rlr rr n id d (max (AVL.nodeHeight lr) (AVL.nodeHeight r) + 1)
      n1.2.2 n2 (fun x hx => dj x (Or.inr (Or.inr hx)))
    have rll' : Repr (h.write n ⟨id, d, max (AVL.nodeHeight lr) (AVL.nodeHeight r) + 1, plr, pr⟩)
        ll pll fll :=
      rll.frame (fun a ha => Heap.write_cells_ne h _ (fun e => n1.2.1 (e ▸ ha)))
    have rL := Repr.node rll' rN l lid ld
      (max (AVL.nodeHeight ll) (max (AVL.nodeHeight lr) (AVL.nodeHeight r) + 1) + 1) l1
      (by simp only [Set.mem_insert_iff, Set.mem_union, not_or]
          exact ⟨fun e => hnl e.symm, l2, fun hx => (dj l (Or.inl rfl)) hx⟩)
      (by intro x hx
          simp only [Set.mem_insert_iff, Set.mem_union, not_or]
          exact ⟨fun e => n1.2.1 (e ▸ hx), djl x hx, dj x (Or.inr (Or.inl hx))⟩)
    refine rL.cast ?_
    ext x
    simp only [Set.mem_insert_iff, Set.mem_union]
    tauto
  · refine ⟨rfl, ?_⟩
    intro a ha
    simp only [Set.mem_insert_iff, Set.mem_union, not_or] at ha
    rw [Heap.write_cells_ne _ _ ha.2.1.1, Heap.write_cells_ne _ _ ha.1]

theorem RRRotation_refines {h : Heap V} {t t' : Node V} {p : Option Nat} {fp : Set Nat}
    (hr : Repr h t p fp) (ht : AVL.RRRotation t = some t') :
    ∃ p' h', Mem.RRRotation h p = some (p', h') ∧ Repr h' t' p' fp ∧ InPlace h fp h' := by
  rcases t with _ | ⟨id, d, c, l, _ | ⟨rid, rd, rc, rl, rr⟩⟩ <;> simp [AVL.RRRotation] at ht
  subst ht
  obtain ⟨n, pl, pr, fl, fr, hp, hcn, hl, hrr, n1, n2, dj, hfp⟩ := hr
  obtain ⟨r, prl, prr, frl, frr, hpr, hcr, rrl, rrr, r1, r2, djr, hfr⟩ := hrr
  subst hp hpr hfp hfr
  have e1 := hl.nodeHeight_eq
  have e2 := rrl.nodeHeight_eq
  have e3 := rrr.nodeHeight_eq
  simp only [Set.mem_insert_iff, Set.mem_union, not_or] at n2 dj
  have hnr : n ≠ r := n2.1
  refine ⟨some r,
    (h.write n ⟨id, d, max (AVL.nodeHeight l) (AVL.nodeHeight rl) + 1, pl, prl⟩).write r
      ⟨rid, rd, max (AVL.nodeHeight rr) (max (AVL.nodeHeight l) (AVL.nodeHeight rl) + 1) + 1,
        some n, prr⟩,
    by simp [Mem.RRRotation, hcn, hcr, e1, e2, e3], ?_, ?_⟩
  · have rN := Repr.node hl rrl n id d (max (AVL.nodeHeight l) (AVL.nodeHeight rl) + 1)
      n1 n2.2.1 (fun x hx => (dj x hx).2.1)
    have rrr' : Repr (h.write n ⟨id, d, max (AVL.nodeHeight l) (AVL.nodeHeight rl) + 1, pl, prl⟩)
        rr prr frr :=
      rrr.frame (fun a ha => Heap.write_cells_ne h _ (fun e => n2.2.2 (e ▸ ha)))
    have rR := Repr.node rN rrr' r rid rd
      (max (AVL.nodeHeight rr) (max (AVL.nodeHeight l) (AVL.nodeHeight rl) + 1) + 1)
      (by simp only [Set.mem_insert_iff, Set.mem_union, not_or]
          exact ⟨fun e => hnr e.symm, fun hx => (dj r hx).1 rfl, r1⟩)
      r2
      (by intro x hx
          simp only [Set.mem_insert_iff, Set.mem_union] at hx
          rcases hx with rfl | hx | hx
          · exact n2.2.2
          · exact (dj x hx).2.2
          · exact djr x hx)
    refine rR.cast ?_
    ext x
    simp only [Set.mem_insert_iff, Set.mem_union]
    tauto
  · refine ⟨rfl, ?_⟩
    intro a ha
    simp only [Set.mem_insert_iff, Set.mem_union, not_or] at ha
    rw [Heap.write_cells_ne _ _ ha.2.2.1, Heap.write_cells_ne _ _ ha.1]

theorem InPlace.toFrame {h h' : Heap V} {t : Node V} {p : Option Nat} {fp : Set Nat}
    (hi : InPlace h fp h') (wf : h.WF) (hr : Repr h t p fp) : Frame h fp h' fp := by
  refine ⟨le_of_eq hi.1.symm, fun a ha => Or.inl ha, fun a ha _ => hi.2 a ha, ?_⟩
  intro a ha
  rw [hi.1] at ha
  have : a ∉ fp := fun hm => absurd (hr.lt_next wf hm) (by omega)
  rw [hi.2 a this]
  exact wf a ha

theorem Frame.trans {h h1 h2 : Heap V} {fp fp1 fp2 : Set Nat}
    (f1 : Frame h fp h1 fp1) (f2 : Frame h1 fp1 h2 fp2) : Frame h fp h2 fp2 := by
  obtain ⟨a1, b1, c1, _⟩ := f1
  obtain ⟨a2, b2, c2, d2⟩ := f2
  refine ⟨le_trans a1 a2, ?_, ?_, d2⟩
  · intro a ha
    rcases b2 a ha with hm | hm
    · exact b1 a hm
    · exact Or.inr (le_trans a1 hm)
  · intro a ha hlt
    have hn1 : a ∉ fp1 := by
      intro hm
      rcases b1 a hm with hm | hm
      · exact ha hm
      · omega
    rw [c2 a hn1 (by omega), c1 a ha hlt]

theorem Frame.refl {h : Heap V} (wf : h.WF) (fp : Set Nat) : Frame h fp h fp :=
  ⟨le_refl _, fun _ ha => Or.inl ha, fun _ _ _ => rfl, wf⟩

theorem Frame.wf {h h' : Heap V} {fp fp' : Set Nat} (f : Frame h fp h' fp') : h'.WF := f.2.2.2

/-- The parent frame after a call on `node->lchild`: the returned pointer is
stored back into the left field of the node at `n`. -/
theorem lift_left {h h1 : Heap V} {n : Nat} {id : Int} {d : V} {c : Int}
    {pl pr pl' : Option Nat} {l' r : Node V} {fl fr fl' : Set Nat}
    (wf : h.WF) (hcn : h.cells n = some ⟨id, d, c, pl, pr⟩) (rr : Repr h r pr fr)
    (n1 : n ∉ fl) (n2 : n ∉ fr) (dj : ∀ x ∈ fl, x ∉ fr)
    (rl' : Repr h1 l' pl' fl') (f : Frame h fl h1 fl') :
    h1.cells n = some ⟨id, d, c, pl, pr⟩ ∧
    Repr (h1.write n ⟨id, d, c, pl', pr⟩) (.mk id d c l' r) (some n) (insert n (fl' ∪ fr)) ∧
    Frame h (insert n (fl ∪ fr)) (h1.write n ⟨id, d, c, pl', pr⟩) (insert n (fl' ∪ fr)) := by
  obtain ⟨fa, fb, fc, fd⟩ := f
  have hn : n < h.next := by
    by_contra hge
    rw [wf n (by omega)] at hcn
    cases hcn
  have n1' : n ∉ fl' := fun hm => by
    rcases fb n hm with hm | hm
    · exact n1 hm
    · omega
  have rr1 : Repr h1 r pr fr :=
    rr.frame (fun a ha => fc a (fun hm => dj a hm ha) (rr.lt_next wf ha))
  have dj' : ∀ x ∈ fl', x ∉ fr := fun x hx hxr => by
    rcases fb x hx with hm | hm
    · exact dj x hm hxr
    · have := rr.lt_next wf hxr
      omega
  refine ⟨by rw [fc n n1 hn]; exact hcn, Repr.node rl' rr1 n id d c n1' n2 dj', fa, ?_, ?_, ?_⟩
  · intro a ha
    simp only [Set.mem_insert_iff, Set.mem_union] at ha ⊢
    rcases ha with ha | ha | ha
    · exact Or.inl (Or.inl ha)
    · rcases fb a ha with hm | hm
      · exact Or.inl (Or.inr (Or.inl hm))
      · exact Or.inr hm
    · exact Or.inl (Or.inr (Or.inr ha))
  · intro a ha hlt
    simp only [Set.mem_insert_iff, Set.mem_union, not_or] at ha
    rw [Heap.write_cells_ne _ _ ha.1]
    exact fc a ha.2.1 hlt
  · intro a ha
    simp only [Heap.write_next] at ha
    rw [Heap.write_cells_ne _ _ (by omega)]
    exact fd a ha

/-- The parent frame after a call on `node->rchild`. -/
theorem lift_right {h h1 : Heap V} {n : Nat} {id : Int} {d : V} {c : Int}
    {pl pr pr' : Option Nat} {l r' : Node V} {fl fr fr' : Set Nat}
    (wf : h.WF) (hcn : h.cells n = some ⟨id, d, c, pl, pr⟩) (rl : Repr h l pl fl)
    (n1 : n ∉ fl) (n2 : n ∉ fr) (dj : ∀ x ∈ fl, x ∉ fr)
    (rr' : Repr h1 r' pr' fr') (f : Frame h fr h1 fr') :
    h1.cells n = some ⟨id, d, c, pl, pr⟩ ∧
    Repr (h1.write n ⟨id, d, c, pl, pr'⟩) (.mk id d c l r') (some n) (insert n (fl ∪ fr')) ∧
    Frame h (insert n (fl ∪ fr)) (h1.write n ⟨id, d, c, pl, pr'⟩) (insert n (fl ∪ fr')) := by
  obtain ⟨fa, fb, fc, fd⟩ := f
  have hn : n < h.next := by
    by_contra hge
    rw [wf n (by omega)] at hcn
    cases hcn
  have n2' : n ∉ fr' := fun hm => by
    rcases fb n hm with hm | hm
    · exact n2 hm
    · omega
  have rl1 : Repr h1 l pl fl :=
    rl.frame (fun a ha => fc a (fun hm => dj a ha hm) (rl.lt_next wf ha))
  have dj' : ∀ x ∈ fl, x ∉ fr' := fun x hx hxr => by
    rcases fb x hxr with hm | hm
    · exact dj x hx hm
    · have := rl.lt_next wf hx
      omega
  refine ⟨by rw [fc n n2 hn]; exact hcn, Repr.node rl1 rr' n id d c n1 n2' dj', fa, ?_, ?_, ?_⟩
  · intro a ha
    simp only [Set.mem_insert_iff, Set.mem_union] at ha ⊢
    rcases ha with ha | ha | ha
    · exact Or.inl (Or.inl ha)
    · exact Or.inl (Or.inr (Or.inl ha))
    · rcases fb a ha with hm | hm
      · exact Or.inl (Or.inr (Or.inr hm))
      · exact Or.inr hm
  · intro a ha hlt
    simp only [Set.mem_insert_iff, Set.mem_union, not_or] at ha
    rw [Heap.write_cells_ne _ _ ha.1]
    exact fc a ha.2.2 hlt
  · intro a ha
    simp only [Heap.write_next] at ha
    rw [Heap.write_cells_ne _ _ (by omega)]
    exact fd a ha

theorem LLRotation_frame {h : Heap V} {t t' : Node V} {p : Option Nat} {fp : Set Nat}
    (wf : h.WF) (hr : Repr h t p fp) (ht : AVL.LLRotation t = some t') :
    ∃ p' h' fp', Mem.LLRotation h p = some (p', h') ∧ Repr h' t' p' fp' ∧
      Frame h fp h' fp' := by
  obtain ⟨p', h', e, r', ip⟩ := LLRotation_refines hr ht
  exact ⟨p', h', fp, e, r', ip.toFrame wf hr⟩

theorem RRRotation_frame {h : Heap V} {t t' : Node V} {p : Option Nat} {fp : Set Nat}
    (wf : h.WF) (hr : Repr h t p fp) (ht : AVL.RRRotation t = some t') :
    ∃ p' h' fp', Mem.RRRotation h p = some (p', h') ∧ Repr h' t' p' fp' ∧
      Frame h fp h' fp' := by
  obtain ⟨p', h', e, r', ip⟩ := RRRotation_refines hr ht
  exact ⟨p', h', fp, e, r', ip.toFrame wf hr⟩

theorem LRRotation_frame {h : Heap V} {t t' : Node V} {p : Option Nat} {fp : Set Nat}
    (wf : h.WF) (hr : Repr h t p fp) (ht : AVL.LRRotation t = some t') :
    ∃ p' h' fp', Mem.LRRotation h p = some (p', h') ∧ Repr h' t' p' fp' ∧
      Frame h fp h' fp' := by
  rcases t with _ | ⟨id, d, c, l, r⟩
  · simp [AVL.LRRotation] at ht
  · simp only [AVL.LRRotation] at ht
    cases e : AVL.RRRotation l with
    | none => simp [e] at ht
    | some l' =>
      simp only [e] at ht
      obtain ⟨n, pl, pr, fl, fr, hp, hcn, rl, rr, n1, n2, dj, hfp⟩ := hr
      subst hp hfp
      obtain ⟨pl', h1, fl', e1, rl', f1⟩ := RRRotation_frame wf rl e
      obtain ⟨hcn1, rN, fN⟩ := lift_left wf hcn rr n1 n2 dj rl' f1
      obtain ⟨p', h2, fp', e2, r2, f2⟩ := LLRotation_frame fN.wf rN ht
      refine ⟨p', h2, fp', ?_, r2, fN.trans f2⟩
      simp [Mem.LRRotation, hcn, e1, hcn1, e2]

theorem RLRotation_frame {h : Heap V} {t t' : Node V} {p : Option Nat} {fp : Set Nat}
    (wf : h.WF) (hr : Repr h t p fp) (ht : AVL.RLRotation t = some t') :
    ∃ p' h' fp', Mem.RLRotation h p = some (p', h') ∧ Repr h' t' p' fp' ∧
      Frame h fp h' fp' := by
  rcases t with _ | ⟨id, d, c, l, r⟩
  · simp [AVL.RLRotation] at ht
  · simp only [AVL.RLRotation] at ht
    cases e : AVL.LLRotation r with
    | none => simp [e] at ht
    | some r' =>
      simp only [e] at ht
      obtain ⟨n, pl, pr, fl, fr, hp, hcn, rl, rr, n1, n2, dj, hfp⟩ := hr
      subst hp hfp
      obtain ⟨pr', h1, fr', e1, rr', f1⟩ := LLRotation_frame wf rr e
      obtain ⟨hcn1, rN, fN⟩ := lift_right wf hcn rl n1 n2 dj rr' f1
      obtain ⟨p', h2, fp', e2, r2, f2⟩ := RRRotation_frame fN.wf rN ht
      refine ⟨p', h2, fp', ?_, r2, fN.trans f2⟩
      simp [Mem.RLRotation, hcn, e1, hcn1, e2]

theorem rebalance_frame {h : Heap V} {id : Int} {d : V} {c : Int} {l r t' : Node V}
    {n : Nat} {fp : Set Nat}
    (wf : h.WF) (hr : Repr h (.mk id d c l r) (some n) fp)
    (ht : AVL.rebalance (.mk id d c l r) = some t') :
    ∃ p' h' fp', Mem.rebalance h n = some (p', h') ∧ Repr h' t' p' fp' ∧
      Frame h fp h' fp' := by
  have hr0 := hr
  obtain ⟨n', pl, pr, fl, fr, hp, hcn, rl, rr, n1, n2, dj, hfp⟩ := hr
  cases hp
  have el := rl.nodeHeight_eq
  have er := rr.nodeHeight_eq
  simp only [AVL.rebalance] at ht
  by_cases c1 : AVL.nodeHeight l - AVL.nodeHeight r > allowedHeightDifference
  · rw [if_pos c1] at ht
    rcases l with _ | ⟨lid, ld, lc, ll, lr⟩
    · simp at ht
    · simp only at ht
      obtain ⟨a, pll, plr, fll, flr, hpl, hcl, rll, rlr, _⟩ := rl
      subst hpl
      have ell := rll.nodeHeight_eq
      have elr := rlr.nodeHeight_eq
      by_cases c2 : AVL.nodeHeight ll ≥ AVL.nodeHeight lr
      · rw [if_pos c2] at ht
        obtain ⟨p', h', fp', e, r', f⟩ := LLRotation_frame wf hr0 ht
        exact ⟨p', h', fp', by simp only [Mem.rebalance, Option.bind_eq_bind, Option.some_bind, hcn, el, er, if_pos c1,
          hcl, ell, elr, if_pos c2, e], r', f⟩
      · rw [if_neg c2] at ht
        obtain ⟨p', h', fp', e, r', f⟩ := LRRotation_frame wf hr0 ht
        exact ⟨p', h', fp', by simp only [Mem.rebalance, Option.bind_eq_bind, Option.some_bind, hcn, el, er, if_pos c1,
          hcl, ell, elr, if_neg c2, e], r', f⟩
  · rw [if_neg c1] at ht
    by_cases c3 : AVL.nodeHeight r - AVL.nodeHeight l > allowedHeightDifference
    · rw [if_pos c3] at ht
      rcases r with _ | ⟨rid, rd, rc, rl', rr'⟩
      · simp at ht
      · simp only at ht
        obtain ⟨a, prl, prr, frl, frr, hpr, hcr, rrl, rrr, _⟩ := rr
        subst hpr
        have erl := rrl.nodeHeight_eq
        have err := rrr.nodeHeight_eq
        by_cases c4 : AVL.nodeHeight rr' ≥ AVL.nodeHeight rl'
        · rw [if_pos c4] at ht
          obtain ⟨p', h', fp', e, r', f⟩ := RRRotation_frame wf hr0 ht
          exact ⟨p', h', fp',
            by simp only [Mem.rebalance, Option.bind_eq_bind, Option.some_bind, hcn, el, er,
              if_neg c1, if_pos c3, hcr, erl, err, if_pos c4, e], r', f⟩
        · rw [if_neg c4] at ht
          obtain ⟨p', h', fp', e, r', f⟩ := RLRotation_frame wf hr0 ht
          exact ⟨p', h', fp',
            by simp only [Mem.rebalance, Option.bind_eq_bind, Option.some_bind, hcn, el, er,
              if_neg c1, if_pos c3, hcr, erl, err, if_neg c4, e], r', f⟩
    · rw [if_neg c3] at ht
      cases ht
      exact ⟨some n, h, fp, by simp only [Mem.rebalance, Option.bind_eq_bind, Option.some_bind, hcn,
        el, er, if_neg c1, if_neg c3, Option.pure_def], hr0, Frame.refl wf fp⟩

theorem updateHeight_frame {h : Heap V} {t t' : Node V} {p : Option Nat} {fp : Set Nat}
    (wf : h.WF) (hr : Repr h t p fp) (ht : AVL.updateHeight t = some t') :
    ∃ p' h' fp', Mem.updateHeight h p = some (p', h') ∧ Repr h' t' p' fp' ∧
      Frame h fp h' fp' := by
  rcases t with _ | ⟨id, d, c, l, r⟩
  · simp [AVL.updateHeight] at ht
  · simp only [AVL.updateHeight, Option.some.injEq] at ht
    subst ht
    have hr0 := hr
    obtain ⟨n, pl, pr, fl, fr, hp, hcn, rl, rr, n1, n2, dj, hfp⟩ := hr
    subst hp hfp
    have el := rl.nodeHeight_eq
    have er := rr.nodeHeight_eq
    refine ⟨some n, h.write n ⟨id, d, max (AVL.nodeHeight l) (AVL.nodeHeight r) + 1, pl, pr⟩, _,
      by simp [Mem.updateHeight, hcn, el, er], Repr.node rl rr n id d _ n1 n2 dj, ?_⟩
    have ip : InPlace h (insert n (fl ∪ fr))
        (h.write n ⟨id, d, max (AVL.nodeHeight l) (AVL.nodeHeight r) + 1, pl, pr⟩) := by
      refine ⟨rfl, fun a ha => ?_⟩
      simp only [Set.mem_insert_iff, not_or] at ha
      exact Heap.write_cells_ne _ _ ha.1
    exact ip.toFrame wf hr0

theorem balanceTree_frame {h : Heap V} {t t' : Node V} {p : Option Nat} {fp : Set Nat}
    (wf : h.WF) (hr : Repr h t p fp) (ht : AVL.balanceTree t = some t') :
    ∃ p' h' fp', Mem.balanceTree h p = some (p', h') ∧ Repr h' t' p' fp' ∧
      Frame h fp h' fp' := by
  rcases t with _ | ⟨id, d, c, l, r⟩
  · simp only [AVL.balanceTree, Option.some.injEq] at ht
    subst ht
    obtain ⟨hp, hfp⟩ := hr
    subst hp
    exact ⟨none, h, fp, rfl, ⟨rfl, hfp⟩, Frame.refl wf fp⟩
  · simp only [AVL.balanceTree] at ht
    cases e : AVL.rebalance (Node.mk id d c l r) with
    | none => simp [e] at ht
    | some m =>
      simp only [e] at ht
      have hp : ∃ n, p = some n := by
        obtain ⟨n, _, _, _, _, hp, _⟩ := hr
        exact ⟨n, hp⟩
      obtain ⟨n, rfl⟩ := hp
      obtain ⟨p1, h1, fp1, e1, r1, f1⟩ := rebalance_frame wf hr e
      obtain ⟨p2, h2, fp2, e2, r2, f2⟩ := updateHeight_frame f1.wf r1 ht
      exact ⟨p2, h2, fp2, by simp [Mem.balanceTree, e1, e2], r2, f1.trans f2⟩

theorem Heap.free_cells_ne (h : Heap V) {a x : Nat} (hx : x ≠ a) :
    (h.free a).cells x = h.cells x := by
  simp [Heap.free, hx]

@[simp] theorem Heap.free_next (h : Heap V) (a : Nat) : (h.free a).next = h.next := rfl

theorem insertNode_frame (k : Int) (v : V) {t : Node V} :
    ∀ {t' : Node V} (fuel : Nat) (h : Heap V) (p : Option Nat) (fp : Set Nat),
      AVL.insertNode t k v = some t' → h.WF → Repr h t p fp → size t < fuel →
      ∃ p' h' fp', Mem.insertNode fuel h p k v = some (p', h') ∧ Repr h' t' p' fp' ∧
        Frame h fp h' fp' := by
  induction t with
  | null =>
    intro t' fuel h p fp ht wf hr hf
    obtain ⟨hp, hfp⟩ := hr
    subst hp hfp
    obtain ⟨f, rfl⟩ : ∃ f, fuel = f + 1 := ⟨fuel - 1, by omega⟩
    simp only [AVL.insertNode] at ht
    have r0 : Repr (h.alloc ⟨k, v, 0, none, none⟩).2 (.mk k v 0 .null .null) (some h.next)
        (insert h.next (∅ ∪ ∅)) :=
      ⟨h.next, none, none, ∅, ∅, rfl, by simp [Heap.alloc], ⟨rfl, rfl⟩, ⟨rfl, rfl⟩,
        Set.not_mem_empty _, Set.not_mem_empty _, fun x hx => absurd hx (Set.not_mem_empty x), rfl⟩
    have f0 : Frame h ∅ (h.alloc ⟨k, v, 0, none, none⟩).2 (insert h.next (∅ ∪ ∅)) := by
      refine ⟨by simp [Heap.alloc], ?_, ?_, ?_⟩
      · intro a ha
        simp only [Set.union_self, Set.mem_insert_iff, Set.mem_empty_iff_false, or_false] at ha
        exact Or.inr (le_of_eq ha.symm)
      · intro a _ hlt
        have : a ≠ h.next := by omega
        simp [Heap.alloc, this]
      · intro a ha
        simp only [Heap.alloc] at ha
        have : a ≠ h.next := by omega
        simp only [Heap.alloc, if_neg this]
        exact wf a (by omega)
    obtain ⟨p', h', fp', e, r', f'⟩ := balanceTree_frame f0.wf r0 ht
    refine ⟨p', h', fp', ?_, r', f0.trans f'⟩
    simp only [Mem.insertNode, Heap.alloc, Option.bind_eq_bind]
    simp only [Heap.alloc] at e
    simp [e]
  | mk id d c l r ihl ihr =>
    intro t' fuel h p fp ht wf hr hf
    obtain ⟨f, rfl⟩ : ∃ f, fuel = f + 1 := ⟨fuel - 1, by omega⟩
    simp only [size] at hf
    obtain ⟨n, pl, pr, fl, fr, hp, hcn, rl, rr, n1, n2, dj, hfp⟩ := hr
    subst hp hfp
    simp only [AVL.insertNode] at ht
    by_cases c1 : k < id
    · rw [if_pos c1] at ht
      cases e : AVL.insertNode l k v with
      | none => simp [e] at ht
      | some l' =>
        simp only [e] at ht
        obtain ⟨pl', h1, fl', e1, rl', f1⟩ := ihl f h pl fl e wf rl (by omega)
        obtain ⟨hcn1, rN, fN⟩ := lift_left wf hcn rr n1 n2 dj rl' f1
        obtain ⟨p', h2, fp', e2, r2, f2⟩ := balanceTree_frame fN.wf rN ht
        refine ⟨p', h2, fp', ?_, r2, fN.trans f2⟩
        simp only [Mem.insertNode, Option.bind_eq_bind, Option.some_bind, hcn, if_pos c1, e1,
          hcn1, e2]
    · rw [if_neg c1] at ht
      by_cases c2 : k > id
      · rw [if_pos c2] at ht
        cases e : AVL.insertNode r k v with
        | none => simp [e] at ht
        | some r' =>
          simp only [e] at ht
          obtain ⟨pr', h1, fr', e1, rr', f1⟩ := ihr f h pr fr e wf rr (by omega)
          obtain ⟨hcn1, rN, fN⟩ := lift_right wf hcn rl n1 n2 dj rr' f1
          obtain ⟨p', h2, fp', e2, r2, f2⟩ := balanceTree_frame fN.wf rN ht
          refine ⟨p', h2, fp', ?_, r2, fN.trans f2⟩
          simp only [Mem.insertNode, Option.bind_eq_bind, Option.some_bind, hcn, if_neg c1,
            if_pos c2, e1, hcn1, e2]
      · rw [if_neg c2] at ht
        have hr0 : Repr h (.mk id d c l r) (some n) (insert n (fl ∪ fr)) :=
          ⟨n, pl, pr, fl, fr, rfl, hcn, rl, rr, n1, n2, dj, rfl⟩
        obtain ⟨p', h2, fp', e2, r2, f2⟩ := balanceTree_frame wf hr0 ht
        refine ⟨p', h2, fp', ?_, r2, f2⟩
        simp only [Mem.insertNode, Option.bind_eq_bind, Option.some_bind, hcn, if_neg c1,
          if_neg c2, e2]

theorem findMin_refines {t : Node V} :
    ∀ {m : Int} (fuel : Nat) (h : Heap V) (p : Option Nat) (fp : Set Nat),
      AVL.findMin t = some m → Repr h t p fp → size t ≤ fuel →
      Mem.findMin fuel h p = some m := by
  induction t with
  | null => intro m fuel h p fp ht; simp [AVL.findMin] at ht
  | mk id d c l r ihl _ =>
    intro m fuel h p fp ht hr hf
    simp only [size] at hf
    obtain ⟨f, rfl⟩ : ∃ f, fuel = f + 1 := ⟨fuel - 1, by omega⟩
    obtain ⟨n, pl, pr, fl, fr, hp, hcn, rl, rr, n1, n2, dj, hfp⟩ := hr
    subst hp
    rcases l with _ | ⟨lid, ld, lc, ll, lr⟩
    · obtain ⟨hpl, _⟩ := rl
      subst hpl
      simp only [AVL.findMin, Option.some.injEq] at ht
      simp [Mem.findMin, hcn, ht]
    · simp only [AVL.findMin] at ht
      have hpl : ∃ a, pl = some a := by
        obtain ⟨a, _, _, _, _, hpl, _⟩ := rl
        exact ⟨a, hpl⟩
      obtain ⟨a, rfl⟩ := hpl
      have := ihl f h (some a) fl ht rl (by omega)
      simp [Mem.findMin, hcn, this]

theorem searchNode_refines (k : Int) {t : Node V} :
    ∀ (fuel : Nat) (h : Heap V) (p : Option Nat) (fp : Set Nat),
      Repr h t p fp → size t < fuel →
      Mem.searchNode fuel h p k = some (AVL.searchNode t k) := by
  induction t with
  | null =>
    intro fuel h p fp hr hf
    obtain ⟨f, rfl⟩ : ∃ f, fuel = f + 1 := ⟨fuel - 1, by omega⟩
    obtain ⟨hp, _⟩ := hr
    subst hp
    rfl
  | mk id d c l r ihl ihr =>
    intro fuel h p fp hr hf
    simp only [size] at hf
    obtain ⟨f, rfl⟩ : ∃ f, fuel = f + 1 := ⟨fuel - 1, by omega⟩
    obtain ⟨n, pl, pr, fl, fr, hp, hcn, rl, rr, n1, n2, dj, hfp⟩ := hr
    subst hp
    simp only [Mem.searchNode, AVL.searchNode, Option.bind_eq_bind, Option.some_bind, hcn]
    by_cases c1 : k < id
    · rw [if_pos c1, if_pos c1]
      exact ihl f h pl fl rl (by omega)
    · rw [if_neg c1, if_neg c1]
      by_cases c2 : k > id
      · rw [if_pos c2, if_pos c2]
        exact ihr f h pr fr rr (by omega)
      · rw [if_neg c2, if_neg c2]
        rfl

theorem destroy_refines {t : Node V} :
    ∀ (fuel : Nat) (h : Heap V) (p : Option Nat) (fp : Set Nat),
      Repr h t p fp → size t < fuel →
      ∃ h', Mem.destroy fuel h p = some h' ∧ InPlace h fp h' := by
  induction t with
  | null =>
    intro fuel h p fp hr hf
    obtain ⟨f, rfl⟩ : ∃ f, fuel = f + 1 := ⟨fuel - 1, by omega⟩
    obtain ⟨hp, _⟩ := hr
    subst hp
    exact ⟨h, rfl, rfl, fun _ _ => rfl⟩
  | mk id d c l r ihl ihr =>
    intro fuel h p fp hr hf
    simp only [size] at hf
    obtain ⟨f, rfl⟩ : ∃ f, fuel = f + 1 := ⟨fuel - 1, by omega⟩
    obtain ⟨n, pl, pr, fl, fr, hp, hcn, rl, rr, n1, n2, dj, hfp⟩ := hr
    subst hp hfp
    obtain ⟨h1, e1, i1⟩ := ihr f h pr fr rr (by omega)
    have rl1 : Repr h1 l pl fl := rl.frame (fun a ha => i1.2 a (dj a ha))
    obtain ⟨h2, e2, i2⟩ := ihl f h1 pl fl rl1 (by omega)
    refine ⟨h2.free n, by simp [Mem.destroy, hcn, e1, e2], ?_, ?_⟩
    · simp only [Heap.free_next]
      rw [i2.1, i1.1]
    · intro a ha
      simp only [Set.mem_insert_iff, Set.mem_union, not_or] at ha
      rw [Heap.free_cells_ne _ ha.1, i2.2 a ha.2.1, i1.2 a ha.2.2]

theorem Repr.some_of_mk {h : Heap V} {id : Int} {d : V} {c : Int} {l r : Node V}
    {p : Option Nat} {fp : Set Nat} (hr : Repr h (.mk id d c l r) p fp) : ∃ a, p = some a := by
  obtain ⟨a, _, _, _, _, hp, _⟩ := hr
  exact ⟨a, hp⟩

theorem deleteNode_frame {t : Node V} :
    ∀ {t' : Node V} (k : Int) (fuel : Nat) (h : Heap V) (p : Option Nat) (fp : Set Nat),
      AVL.deleteNode k t = some t' → h.WF → Repr h t p fp → size t < fuel →
      ∃ p' h' fp', Mem.deleteNode fuel h p k = some (p', h') ∧ Repr h' t' p' fp' ∧
        Frame h fp h' fp' := by
  induction t with
  | null =>
    intro t' k fuel h p fp ht wf hr hf
    obtain ⟨f, rfl⟩ : ∃ f, fuel = f + 1 := ⟨fuel - 1, by omega⟩
    simp only [AVL.deleteNode, Option.some.injEq] at ht
    subst ht
    obtain ⟨hp, hfp⟩ := hr
    subst hp
    exact ⟨none, h, fp, rfl, ⟨rfl, hfp⟩, Frame.refl wf fp⟩
  | mk id d c l r ihl ihr =>
    intro t' k fuel h p fp ht wf hr hf
    obtain ⟨f, rfl⟩ : ∃ f, fuel = f + 1 := ⟨fuel - 1, by omega⟩
    simp only [size] at hf
    have hr0 := hr
    obtain ⟨n, pl, pr, fl, fr, hp, hcn, rl, rr, n1, n2, dj, hfp⟩ := hr
    subst hp hfp
    by_cases c1 : k < id
    · rw [deleteNode_lt d c l r c1] at ht
      cases e : AVL.deleteNode k l with
      | none => simp [e] at ht
      | some l' =>
        simp only [e, Option.bind] at ht
        obtain ⟨pl', h1, fl', e1, rl', f1⟩ := ihl k f h pl fl e wf rl (by omega)
        obtain ⟨hcn1, rN, fN⟩ := lift_left wf hcn rr n1 n2 dj rl' f1
        obtain ⟨p', h2, fp', e2, r2, f2⟩ := balanceTree_frame fN.wf rN ht
        refine ⟨p', h2, fp', ?_, r2, fN.trans f2⟩
        simp only [Mem.deleteNode, Option.bind_eq_bind, Option.some_bind, hcn, if_pos c1, e1,
          hcn1, e2]
    · by_cases c2 : id < k
      · rw [deleteNode_gt d c l r c2] at ht
        cases e : AVL.deleteNode k r with
        | none => simp [e] at ht
        | some r' =>
          simp only [e, Option.bind] at ht
          obtain ⟨pr', h1, fr', e1, rr', f1⟩ := ihr k f h pr fr e wf rr (by omega)
          obtain ⟨hcn1, rN, fN⟩ := lift_right wf hcn rl n1 n2 dj rr' f1
          obtain ⟨p', h2, fp', e2, r2, f2⟩ := balanceTree_frame fN.wf rN ht
          refine ⟨p', h2, fp', ?_, r2, fN.trans f2⟩
          have c2' : k > id := c2
          simp only [Mem.deleteNode, Option.bind_eq_bind, Option.some_bind, hcn, if_neg c1,
            if_pos c2', e1, hcn1, e2]
      · obtain rfl : k = id := by omega
        have c2' : ¬ k > k := c2
        have hfree : ∀ (q : Option Nat) (s : Node V) (fs : Set Nat), Repr h s q fs →
            n ∉ fs → (∀ x ∈ fs, x ∈ insert n (fl ∪ fr)) →
            Repr (h.free n) s q fs ∧ Frame h (insert n (fl ∪ fr)) (h.free n) fs := by
          intro q s fs rs hn hsub
          refine ⟨rs.frame (fun a ha => Heap.free_cells_ne h (fun e => hn (e ▸ ha))),
            le_refl _, fun a ha => Or.inl (hsub a ha), ?_, ?_⟩
          · intro a ha _
            simp only [Set.mem_insert_iff, not_or] at ha
            exact Heap.free_cells_ne h ha.1
          · intro a ha
            by_cases e : a = n
            · simp [Heap.free, e]
            · rw [Heap.free_cells_ne h e]; exact wf a ha
        rcases l with _ | ⟨lid, ld, lc, ll, lr⟩
        · rw [deleteNode_left_null] at ht
          obtain ⟨hpl, hfl⟩ := rl
          subst hpl
          obtain ⟨rF, fF⟩ := hfree pr r fr rr n2
            (fun x hx => Set.mem_insert_of_mem _ (Set.mem_union_right _ hx))
          obtain ⟨p', h2, fp', e2, r2, f2⟩ := balanceTree_frame fF.wf rF ht
          refine ⟨p', h2, fp', ?_, r2, fF.trans f2⟩
          simp only [Mem.deleteNode, Option.bind_eq_bind, Option.some_bind, hcn, if_neg c1,
            if_neg c2', e2]
        · obtain ⟨a, rfl⟩ := rl.some_of_mk
          rcases r with _ | ⟨rid, rd, rc, rl', rr'⟩
          · rw [deleteNode_right_null] at ht
            obtain ⟨hpr, hfr⟩ := rr
            subst hpr
            obtain ⟨rF, fF⟩ := hfree (some a) _ fl rl n1
              (fun x hx => Set.mem_insert_of_mem _ (Set.mem_union_left _ hx))
            obtain ⟨p', h2, fp', e2, r2, f2⟩ := balanceTree_frame fF.wf rF ht
            refine ⟨p', h2, fp', ?_, r2, fF.trans f2⟩
            simp only [Mem.deleteNode, Option.bind_eq_bind, Option.some_bind, hcn, if_neg c1,
              if_neg c2', e2]
          · obtain ⟨b, rfl⟩ := rr.some_of_mk
            rw [deleteNode_both] at ht
            cases em : AVL.findMin (Node.mk rid rd rc rl' rr') with
            | none => simp [em] at ht
            | some m =>
              simp only [em, Option.bind] at ht
              cases e : AVL.deleteNode m (Node.mk rid rd rc rl' rr') with
              | none => simp [e] at ht
              | some r' =>
                simp only [e] at ht
                have hm := findMin_refines f h (some b) fr em rr (by omega)
                have wf1 : (h.write n ⟨m, d, c, some a, some b⟩).WF := by
                  intro x hx
                  have hn : n < h.next := hr0.lt_next wf (Set.mem_insert _ _)
                  rw [Heap.write_cells_ne _ _ (by simp only [Heap.write_next] at hx; omega)]
                  exact wf x hx
                have f01 : Frame h (insert n (fl ∪ fr)) (h.write n ⟨m, d, c, some a, some b⟩)
                    (insert n (fl ∪ fr)) := by
                  refine ⟨le_refl _, fun x hx => Or.inl hx, ?_, wf1⟩
                  intro x hx _
                  simp only [Set.mem_insert_iff, not_or] at hx
                  exact Heap.write_cells_ne _ _ hx.1
                have rl1 : Repr (h.write n ⟨m, d, c, some a, some b⟩) _ (some a) fl :=
                  rl.frame (fun x hx => Heap.write_cells_ne h _ (fun e => n1 (e ▸ hx)))
                have rr1 : Repr (h.write n ⟨m, d, c, some a, some b⟩) _ (some b) fr :=
                  rr.frame (fun x hx => Heap.write_cells_ne h _ (fun e => n2 (e ▸ hx)))
                obtain ⟨pr', h2, fr', e1, rr', f1⟩ :=
                  ihr m f (h.write n ⟨m, d, c, some a, some b⟩) (some b) fr e wf1 rr1 (by omega)
                obtain ⟨hcn1, rN, fN⟩ :=
                  lift_right wf1 (Heap.write_cells_self h n _) rl1 n1 n2 dj rr' f1
                obtain ⟨p', h3, fp', e2, r2, f2⟩ := balanceTree_frame fN.wf rN ht
                refine ⟨p', h3, fp', ?_, r2, (f01.trans fN).trans f2⟩
                simp only [Mem.deleteNode, Option.bind_eq_bind, Option.some_bind, hcn, if_neg c1,
                  if_neg c2', hm, e1, hcn1, e2]

theorem insList_length_le (k : Int) (v : V) (xs : List (Int × V)) :
    (insList k v xs).length ≤ xs.length + 1 := by
  induction xs with
  | nil => simp [insList]
  | cons q xs ih =>
    obtain ⟨a, w⟩ := q
    simp only [insList]
    split
    · simp
    · split
      · simp
      · simp only [List.length_cons]; omega

theorem applyOp_size (op : Op V) {t t' : Node V} (ho : Ordered t)
    (e : applyOp t op = some t') : size t' ≤ size t + 1 := by
  cases op with
  | insert id data =>
    have hl := insertNode_toList id data ho e
    rw [size_eq_length, size_eq_length, hl]
    exact insList_length_le id data _
  | delete id =>
    have hk := deleteNode_keys id ho e
    have l1 : size t' = (keys t').length := by rw [size_eq_length, keys, List.length_map]
    have l2 : size t = (keys t).length := by rw [size_eq_length, keys, List.length_map]
    rw [l1, l2, hk]
    have := List.length_filter_le (fun a => decide (a ≠ id)) (keys t)
    omega

theorem applyOp_frame (op : Op V) {t t' : Node V} (fuel : Nat) (h : Heap V) (p : Option Nat)
    (fp : Set Nat) (e : applyOp t op = some t') (wf : h.WF) (hr : Repr h t p fp)
    (hf : size t < fuel) :
    ∃ p' h' fp', Mem.applyOp fuel h p op = some (p', h') ∧ Repr h' t' p' fp' ∧
      Frame h fp h' fp' := by
  cases op with
  | insert id data => exact insertNode_frame id data fuel h p fp e wf hr hf
  | delete id => exact deleteNode_frame id fuel h p fp e wf hr hf

theorem run_frame (ops : List (Op V)) :
    ∀ {t : Node V} (fuel : Nat) (h : Heap V) (p : Option Nat) (fp : Set Nat),
      h.WF → Repr h t p fp → Inv t → Ordered t → size t + ops.length < fuel →
      ∃ t' p' h' fp', AVL.run ops t = some t' ∧ Mem.run fuel ops (p, h) = some (p', h') ∧
        Repr h' t' p' fp' ∧ Frame h fp h' fp' ∧ Inv t' ∧ Ordered t' ∧
        size t' ≤ size t + ops.length := by
  induction ops with
  | nil =>
    intro t fuel h p fp wf hr hi ho _
    exact ⟨t, p, h, fp, rfl, rfl, hr, Frame.refl wf fp, hi, ho, le_refl _⟩
  | cons op ops ih =>
    intro t fuel h p fp wf hr hi ho hf
    simp only [List.length_cons] at hf
    obtain ⟨t1, e1, i1, o1, _⟩ := applyOp_spec op hi ho
    have s1 := applyOp_size op ho e1
    obtain ⟨p1, h1, fp1, m1, r1, f1⟩ := applyOp_frame op fuel h p fp e1 wf hr (by omega)
    obtain ⟨t2, p2, h2, fp2, e2, m2, r2, f2, i2, o2, s2⟩ :=
      ih fuel h1 p1 fp1 f1.wf r1 i1 o1 (by omega)
    refine ⟨t2, p2, h2, fp2, by simp only [AVL.run, e1, e2], ?_, r2, f1.trans f2, i2, o2, ?_⟩
    · simp only [Mem.run, m1, m2]
    · simp only [List.length_cons]; omega

/-- Frame for an object that the calls do not reach: its tree stays in place. -/
theorem Repr.of_frame {h h' : Heap V} {t s : Node V} {p q : Option Nat} {fp fp' fq : Set Nat}
    (hq : Repr h s q fq) (wf : h.WF) (dj : ∀ x ∈ fq, x ∉ fp) (f : Frame h fp h' fp')
    (_hp : Repr h' t p fp') : Repr h' s q fq ∧ ∀ x ∈ fq, x ∉ fp' := by
  refine ⟨hq.frame (fun a ha => f.2.2.1 a (dj a ha) (hq.lt_next wf ha)), ?_⟩
  intro x hx hx'
  rcases f.2.1 x hx' with hm | hm
  · exact dj x hx hm
  · have := hq.lt_next wf hx
    omega

theorem Heap.empty_wf : (Heap.empty : Heap V).WF := fun _ _ => rfl

theorem Repr.of_null (h : Heap V) : Repr h (.null : Node V) none ∅ := ⟨rfl, rfl⟩

theorem alloc_leaf_frame {h : Heap V} (wf : h.WF) (k : Int) (v : V) :
    Repr (h.alloc ⟨k, v, 0, none, none⟩).2 (.mk k v 0 .null .null) (some h.next)
        (insert h.next (∅ ∪ ∅)) ∧
      (h.alloc ⟨k, v, 0, none, none⟩).2.WF ∧
      (∀ a, a < h.next → (h.alloc ⟨k, v, 0, none, none⟩).2.cells a = h.cells a) := by
  refine ⟨⟨h.next, none, none, ∅, ∅, rfl, by simp [Heap.alloc], ⟨rfl, rfl⟩, ⟨rfl, rfl⟩,
      Set.not_mem_empty _, Set.not_mem_empty _,
      fun x hx => absurd hx (Set.not_mem_empty x), rfl⟩, ?_, ?_⟩
  · intro a ha
    simp only [Heap.alloc] at ha
    have : a ≠ h.next := by omega
    simp only [Heap.alloc, if_neg this]
    exact wf a (by omega)
  · intro a hlt
    have : a ≠ h.next := by omega
    simp [Heap.alloc, this]

theorem leaf_inv (k : Int) (v : V) :
    Inv (Node.mk k v 0 .null .null) ∧ Ordered (Node.mk k v 0 .null .null) :=
  ⟨by simp [Inv, height], by simp [Ordered]⟩

theorem Heap.write_wf {h : Heap V} (wf : h.WF) {a : Nat} (ha : a < h.next) (c : Cell V) :
    (h.write a c).WF := by
  intro x hx
  simp only [Heap.write_next] at hx
  rw [Heap.write_cells_ne _ _ (by omega)]
  exact wf x hx

/-- The node-building branch shared by the copy constructor and the copy
assignment to an empty object. -/
theorem copy_node_frame (movedFrom : V → V) {h : Heap V} {id : Int} {d : V} {c : Int}
    {l r : Node V} {a : Nat} {fA : Set Nat} (wf : h.WF)
    (rA : Repr h (.mk id d c l r) (some a) fA) :
    ∃ pl pr, h.cells a = some ⟨id, d, c, pl, pr⟩ ∧
      ∃ h1 fC, h1 = ((h.write a ⟨id, movedFrom d, c, pl, pr⟩).alloc ⟨id, d, 0, none, none⟩).2 ∧
        h1.WF ∧ Repr h1 (.mk id d 0 .null .null) (some h.next) fC ∧
        Repr h1 (.mk id (movedFrom d) c l r) (some a) fA ∧ (∀ x ∈ fA, x ∉ fC) := by
  have ha : a < h.next := rA.lt_next wf (by
    obtain ⟨a', _, _, _, _, hp, _, _, _, _, _, _, hfp⟩ := rA
    cases hp; rw [hfp]; exact Set.mem_insert _ _)
  have rA0 := rA
  obtain ⟨a', pl, pr, fl, fr, hp, hcn, rl, rr, n1, n2, dj, hfp⟩ := rA
  cases hp
  subst hfp
  refine ⟨pl, pr, hcn, _, insert h.next (∅ ∪ ∅), rfl, ?_, ?_, ?_, ?_⟩
  · exact (alloc_leaf_frame (Heap.write_wf wf ha _) id d).2.1
  · exact (alloc_leaf_frame (Heap.write_wf wf ha _) id d).1
  · have r0 := Repr.node rl rr a id (movedFrom d) c n1 n2 dj
    refine r0.frame (fun x hx => ?_)
    exact (alloc_leaf_frame (Heap.write_wf wf ha _) id d).2.2 x
      (by simpa using rA0.lt_next wf hx)
  · intro x hx hxc
    have hlt := rA0.lt_next wf hx
    simp only [Set.union_self, Set.mem_insert_iff, Set.mem_empty_iff_false, or_false,
      Heap.write_next] at hxc
    omega

theorem copyConstructor_frame (movedFrom : V → V) {h : Heap V} {tA : Node V}
    {pA : Option Nat} {fA : Set Nat} (wf : h.WF) (rA : Repr h tA pA fA) :
    ∃ pC h1 tC fC tA', Mem.copyConstructor movedFrom h pA = some (pC, pA, h1) ∧ h1.WF ∧
      Repr h1 tC pC fC ∧ Repr h1 tA' pA fA ∧ (∀ x ∈ fA, x ∉ fC) ∧ Inv tC ∧ Ordered tC ∧
      size tC ≤ size tA ∧ size tA' = size tA ∧
      (∀ k, AVL.searchNode tA' k = AVL.searchNode tA k) ∧
      (⟨tC⟩, ⟨tA'⟩) = AVL.copyConstructor movedFrom ⟨tA⟩ := by
  rcases tA with _ | ⟨id, d, c, l, r⟩
  · obtain ⟨hp, hfp⟩ := rA
    subst hp hfp
    exact ⟨none, h, .null, ∅, .null, rfl, wf, Repr.of_null h, Repr.of_null h,
      fun x hx => absurd hx (Set.not_mem_empty x), trivial, List.Pairwise.nil, le_refl _, rfl,
      fun _ => rfl, rfl⟩
  · obtain ⟨a, rfl⟩ := rA.some_of_mk
    obtain ⟨pl, pr, hcn, h1, fC, e1, wf1, rC, rA', dj⟩ := copy_node_frame movedFrom wf rA
    refine ⟨some h.next, h1, _, fC, _, ?_, wf1, rC, rA', dj, (leaf_inv id d).1, (leaf_inv id d).2,
      ?_, ?_, fun k => searchNode_data id d (movedFrom d) c l r k, rfl⟩
    · simp [Mem.copyConstructor, hcn, e1, Heap.alloc]
    · simp only [size]; omega
    · simp only [size]

theorem copyAssign_frame (movedFrom : V → V) (fuel : Nat) {h : Heap V} {tA tB : Node V}
    {pA pB : Option Nat} {fA fB : Set Nat} (wf : h.WF) (rA : Repr h tA pA fA)
    (rB : Repr h tB pB fB) (dj : ∀ x ∈ fA, x ∉ fB) (hf : size tB < fuel)
    (iA : Inv tA) (oA : Ordered tA) :
    ∃ pB1 h1 tB' fB' tA' fA', Mem.copyAssign movedFrom fuel h pB pA = some (pB1, pA, h1) ∧
      h1.WF ∧ Repr h1 tB' pB1 fB' ∧ Repr h1 tA' pA fA' ∧ (∀ x ∈ fA', x ∉ fB') ∧
      Inv tB' ∧ Ordered tB' ∧ size tB' ≤ size tA ∧ size tA' ≤ size tA + size tB ∧
      ((pA = none ∨ pB = none) → ∀ k, AVL.searchNode tA' k = AVL.searchNode tA k) ∧
      (pA ≠ none → pB ≠ none → tA' = tB) ∧
      (⟨tB'⟩, ⟨tA'⟩) = AVL.copyAssign movedFrom ⟨tB⟩ ⟨tA⟩ := by
  rcases tA with _ | ⟨id, d, c, l, r⟩
  · obtain ⟨hp, hfp⟩ := rA
    subst hp hfp
    obtain ⟨h1, e1, i1⟩ := destroy_refines fuel h pB fB rB hf
    have wf1 : h1.WF := (i1.toFrame wf rB).wf
    refine ⟨none, h1, .null, ∅, .null, ∅, by simp [Mem.copyAssign, e1], wf1, Repr.of_null h1,
      Repr.of_null h1, fun x hx => absurd hx (Set.not_mem_empty x), trivial, List.Pairwise.nil,
      le_refl _, by simp [size], fun _ _ => rfl, fun hne => absurd rfl hne, ?_⟩
    cases tB <;> rfl
  · obtain ⟨a, rfl⟩ := rA.some_of_mk
    rcases tB with _ | ⟨sid, sd, sc, sl, sr⟩
    · obtain ⟨hp, hfp⟩ := rB
      subst hp hfp
      obtain ⟨pl, pr, hcn, h1, fC, e1, wf1, rC, rA', dj'⟩ := copy_node_frame movedFrom wf rA
      refine ⟨some h.next, h1, _, fC, _, fA, ?_, wf1, rC, rA', dj', (leaf_inv id d).1,
        (leaf_inv id d).2, ?_, ?_, fun _ k => searchNode_data id d (movedFrom d) c l r k,
        fun _ hne => absurd rfl hne, rfl⟩
      · simp [Mem.copyAssign, hcn, e1, Heap.alloc]
      · simp only [size]; omega
      · simp only [size]; omega
    · obtain ⟨b, rfl⟩ := rB.some_of_mk
      have rA0 := rA
      have rB0 := rB
      obtain ⟨a', pl, pr, fl, fr, hp, hca, rl, rr, n1, n2, djA, hfA⟩ := rA
      cases hp
      obtain ⟨b', ql, qr, gl, gr, hq, hcb, sl', sr', m1, m2, djB, hfB⟩ := rB
      cases hq
      subst hfA hfB
      have hab : a ≠ b := fun e => dj a (Set.mem_insert _ _) (e ▸ Set.mem_insert _ _)
      have ha : a < h.next := rA0.lt_next wf (Set.mem_insert _ _)
      have hb : b < h.next := rB0.lt_next wf (Set.mem_insert _ _)
      have da : ∀ x ∈ fl ∪ fr, x ≠ a ∧ x ≠ b := by
        intro x hx
        refine ⟨fun e => ?_, fun e => ?_⟩
        · subst e
          rcases hx with hx | hx
          · exact n1 hx
          · exact n2 hx
        · subst e
          exact dj x (Set.mem_insert_of_mem _ hx) (Set.mem_insert _ _)
      have db : ∀ x ∈ gl ∪ gr, x ≠ a ∧ x ≠ b := by
        intro x hx
        refine ⟨fun e => ?_, fun e => ?_⟩
        · subst e
          exact dj x (Set.mem_insert _ _) (Set.mem_insert_of_mem _ hx)
        · subst e
          rcases hx with hx | hx
          · exact m1 hx
          · exact m2 hx
      have keep : ∀ x, x ≠ a → x ≠ b →
          ((h.write a ⟨sid, sd, sc, ql, qr⟩).write b ⟨id, d, c, pl, pr⟩).cells x = h.cells x :=
        fun x xa xb => by rw [Heap.write_cells_ne _ _ xb, Heap.write_cells_ne _ _ xa]
      have wf1 : ((h.write a ⟨sid, sd, sc, ql, qr⟩).write b ⟨id, d, c, pl, pr⟩).WF :=
        Heap.write_wf (Heap.write_wf wf ha _) hb _
      -- the destination now owns the former tree of the source
      have rl1 : Repr (h.write a ⟨sid, sd, sc, ql, qr⟩) l pl fl :=
        rl.frame (fun x hx => Heap.write_cells_ne h _ (da x (Or.inl hx)).1)
      have rr1 : Repr (h.write a ⟨sid, sd, sc, ql, qr⟩) r pr fr :=
        rr.frame (fun x hx => Heap.write_cells_ne h _ (da x (Or.inr hx)).1)
      have rB' : Repr ((h.write a ⟨sid, sd, sc, ql, qr⟩).write b ⟨id, d, c, pl, pr⟩)
          (.mk id d c l r) (some b) (insert b (fl ∪ fr)) :=
        Repr.node rl1 rr1 b id d c (fun hx => (da b (Or.inl hx)).2 rfl)
          (fun hx => (da b (Or.inr hx)).2 rfl) djA
      -- and the source the former tree of the destination
      have sl1 : Repr h sl ql gl := sl'
      have rAw : Repr (h.write a ⟨sid, sd, sc, ql, qr⟩) (.mk sid sd sc sl sr) (some a)
          (insert a (gl ∪ gr)) :=
        Repr.node sl1 sr' a sid sd sc (fun hx => (db a (Or.inl hx)).1 rfl)
          (fun hx => (db a (Or.inr hx)).1 rfl) djB
      have rA' : Repr ((h.write a ⟨sid, sd, sc, ql, qr⟩).write b ⟨id, d, c, pl, pr⟩)
          (.mk sid sd sc sl sr) (some a) (insert a (gl ∪ gr)) := by
        refine rAw.frame (fun x hx => Heap.write_cells_ne _ _ ?_)
        rcases hx with rfl | hx
        · exact hab
        · exact (db x hx).2
      refine ⟨some b, _, _, _, _, _, ?_, wf1, rB', rA', ?_, iA, oA, le_refl _, ?_, ?_,
        fun _ _ => rfl, rfl⟩
      · simp [Mem.copyAssign, hca, hcb]
      · intro x hx hx'
        rcases hx with rfl | hx
        · rcases hx' with e | hx'
          · exact hab e
          · exact (da x hx').1 rfl
        · rcases hx' with rfl | hx'
          · exact (db x hx).2 rfl
          · exact dj x (Set.mem_insert_of_mem _ hx') (Set.mem_insert_of_mem _ hx)
      · omega
      · intro hh
        rcases hh with hh | hh <;> cases hh

theorem build_repr (fuel : Nat) (opsA opsB : List (Op V))
    (hf : opsA.length + opsB.length < fuel) :
    ∃ pA pB h tA tB fA fB, Mem.build fuel opsA opsB = some (pA, pB, h) ∧ h.WF ∧
      AVL.run opsA .null = some tA ∧ AVL.run opsB .null = some tB ∧
      Repr h tA pA fA ∧ Repr h tB pB fB ∧ (∀ x ∈ fA, x ∉ fB) ∧ Inv tA ∧ Ordered tA ∧
      size tA ≤ opsA.length ∧ size tB ≤ opsB.length := by
  obtain ⟨tA, pA, h1, fA, eA, mA, rA, fr1, iA, oA, sA⟩ :=
    run_frame opsA fuel Heap.empty none ∅ Heap.empty_wf (Repr.of_null _) trivial
      List.Pairwise.nil (by simp only [size]; omega)
  obtain ⟨tB, pB, h2, fB, eB, mB, rB, fr2, _, _, sB⟩ :=
    run_frame opsB fuel h1 none ∅ fr1.wf (Repr.of_null _) trivial
      List.Pairwise.nil (by simp only [size]; omega)
  obtain ⟨rA2, dj⟩ := rA.of_frame fr1.wf (fun x _ hx => absurd hx (Set.not_mem_empty x)) fr2 rB
  simp only [size, Nat.zero_add] at sA sB
  exact ⟨pA, pB, h2, tA, tB, fA, fB, by simp only [Mem.build, mA, mB], fr2.wf, eA, eB, rA2, rB,
    dj, iA, oA, sA, sB⟩

theorem search_after_run (ops : List (Op V)) (fuel : Nat) {h1 : Heap V} {tB' tA' : Node V}
    {pB1 pA : Option Nat} {fB' fA' : Set Nat} (wf1 : h1.WF) (rB' : Repr h1 tB' pB1 fB')
    (rA' : Repr h1 tA' pA fA') (dj : ∀ x ∈ fA', x ∉ fB') (iB : Inv tB') (oB : Ordered tB')
    (hfB : size tB' + ops.length < fuel) (hfA : size tA' < fuel) :
    ∃ pB2 h2, Mem.run fuel ops (pB1, h1) = some (pB2, h2) ∧
      ∀ k, Mem.searchNode fuel h2 pA k = some (AVL.searchNode tA' k) := by
  obtain ⟨t2, p2, h2, fp2, _, m2, r2, f2, _⟩ := run_frame ops fuel h1 pB1 fB' wf1 rB' iB oB hfB
  obtain ⟨rA2, _⟩ := rA'.of_frame wf1 dj f2 r2
  exact ⟨p2, h2, m2, fun k => searchNode_refines k fuel h2 pA fA' rA2 hfA⟩

theorem Repr.none_iff {h : Heap V} {t : Node V} {p : Option Nat} {fp : Set Nat}
    (hr : Repr h t p fp) : p = none ↔ t = .null := by
  cases t with
  | null => exact ⟨fun _ => rfl, fun _ => hr.1⟩
  | mk id d c l r =>
    obtain ⟨a, rfl⟩ := hr.some_of_mk
    exact ⟨fun e => (by cases e), fun e => (by cases e)⟩

/-- C12 (amended, copy independence): let `A` and `B` be built in one store
by any calls `opsA` and `opsB` on their heads, and let `ops` be any further
calls, with fuel above the total number of calls.  After the copy construction
of a new object from `A` followed by `ops` on the new object, `A.searchNode`
answers every key as before the copy.  After the copy assignment `B = A`
followed by `ops` on `B`: if `A` or `B` was empty, `A.searchNode` answers every
key as before the copy; if both were non-empty, the assignment has exchanged
the two trees and `A.searchNode` answers every key as `B.searchNode` did before
the copy.  In every case the calls on the copy run to completion and do not
change what `A.searchNode` returns. -/
theorem copy_independence (movedFrom : V → V) (opsA opsB ops : List (Op V)) (fuel : Nat)
    (hf : opsA.length + opsB.length + ops.length < fuel) :
    ∃ tA tB, AVL.run opsA .null = some tA ∧ AVL.run opsB .null = some tB ∧
      ∀ k,
        Mem.searchFirst fuel opsA opsB k = some (AVL.searchNode tA k) ∧
        Mem.searchSecond fuel opsA opsB k = some (AVL.searchNode tB k) ∧
        Mem.searchAfterCopyConstructor movedFrom fuel opsA opsB ops k =
          some (AVL.searchNode tA k) ∧
        ((tA = .null ∨ tB = .null) →
          Mem.searchAfterCopyAssign movedFrom fuel opsA opsB ops k =
            some (AVL.searchNode tA k)) ∧
        (tA ≠ .null → tB ≠ .null →
          Mem.searchAfterCopyAssign movedFrom fuel opsA opsB ops k =
            some (AVL.searchNode tB k)) := by
  obtain ⟨pA, pB, h, tA, tB, fA, fB, eb, wf, eA, eB, rA, rB, dj, iA, oA, sA, sB⟩ :=
    build_repr fuel opsA opsB (by omega)
  refine ⟨tA, tB, eA, eB, fun k => ⟨?_, ?_, ?_, ?_, ?_⟩⟩
  · simp only [Mem.searchFirst, eb]
    exact searchNode_refines k fuel h pA fA rA (by omega)
  · simp only [Mem.searchSecond, eb]
    exact searchNode_refines k fuel h pB fB rB (by omega)
  · obtain ⟨pC, h1, tC, fC, tA', ec, wf1, rC, rA', dj', iC, oC, sC, sA', hs, _⟩ :=
      copyConstructor_frame movedFrom wf rA
    obtain ⟨pC2, h2, er, hsearch⟩ :=
      search_after_run ops fuel wf1 rC rA' dj' iC oC (by omega) (by omega)
    simp only [Mem.searchAfterCopyConstructor, eb, ec, er]
    rw [hsearch k, hs k]
  · intro hempty
    obtain ⟨pB1, h1, tB', fB', tA', fA', ec, wf1, rB', rA', dj', iB, oB, sB', sA', hs, _, _⟩ :=
      copyAssign_frame movedFrom fuel wf rA rB dj (by omega) iA oA
    obtain ⟨pB2, h2, er, hsearch⟩ :=
      search_after_run ops fuel wf1 rB' rA' dj' iB oB (by omega) (by omega)
    simp only [Mem.searchAfterCopyAssign, eb, ec, er]
    rw [hsearch k, hs (hempty.imp rA.none_iff.mpr rB.none_iff.mpr) k]
  · intro hA hB
    obtain ⟨pB1, h1, tB', fB', tA', fA', ec, wf1, rB', rA', dj', iB, oB, sB', sA', _, hs, _⟩ :=
      copyAssign_frame movedFrom fuel wf rA rB dj (by omega) iA oA
    obtain ⟨pB2, h2, er, hsearch⟩ :=
      search_after_run ops fuel wf1 rB' rA' dj' iB oB (by omega) (by omega)
    simp only [Mem.searchAfterCopyAssign, eb, ec, er]
    rw [hsearch k, hs (fun e => hA (rA.none_iff.mp e)) (fun e => hB (rB.none_iff.mp e))]

/-- C12 (counterexample): `A` is built by inserting 10, 20, 5 and `B` by
inserting 1, so `A.searchNode(10)` is `true`; after the copy assignment
`B = A` and an insert of 2 into `B`, `A.searchNode(10)` is `false`. -/
theorem copy_assign_changes_source :
    Mem.searchFirst 8 sampleOps [.insert 1 11] 10 = some true ∧
    Mem.searchAfterCopyAssign (fun x => x) 8 sampleOps [.insert 1 11] [.insert 2 22] 10 =
      some false := by
  decide

theorem copy_independence_witness :
    sampleOps.length + sampleCalls.length + [Op.insert 2 (22 : Int)].length < 8 ∧
    ∃ tA tB, AVL.run sampleOps .null = some tA ∧ AVL.run sampleCalls .null = some tB ∧
      ∀ k,
        Mem.searchFirst 8 sampleOps sampleCalls k = some (AVL.searchNode tA k) ∧
        Mem.searchSecond 8 sampleOps sampleCalls k = some (AVL.searchNode tB k) ∧
        Mem.searchAfterCopyConstructor (fun x => x) 8 sampleOps sampleCalls [.insert 2 22] k =
          some (AVL.searchNode tA k) ∧
        ((tA = .null ∨ tB = .null) →
          Mem.searchAfterCopyAssign (fun x => x) 8 sampleOps sampleCalls [.insert 2 22] k =
            some (AVL.searchNode tA k)) ∧
        (tA ≠ .null → tB ≠ .null →
          Mem.searchAfterCopyAssign (fun x => x) 8 sampleOps sampleCalls [.insert 2 22] k =
            some (AVL.searchNode tB k)) :=
  ⟨by decide, copy_independence (fun x => x) sampleOps sampleCalls [.insert 2 22] 8 (by decide)⟩

end AVL
